import Mathlib

/-!
Verification of `pypekit/core.py` (pipeline synthesis and cached execution).

The development shallow-embeds the module in two layers that mirror the
source file:

* the Repository layer (`Task` types, `Node` tree, `Repository.build_tree`,
  `Repository._prune_tree`, `Repository.build_pipelines`,
  `Pipeline._add_task`), where the only data of a task instance that the
  algorithms consult are its class identity, `input_types` and
  `output_types`, captured by `TaskDef`;
* the executor layer (`CachedExecutor.run`, `CachedExecutor._run_pipeline`),
  where a task is its stable class name together with its `run` behaviour,
  captured by `ExecTask`.

Python's `Set[Type[Task]]` of task classes is modelled as a `List TaskDef`
holding the set's iteration order (only membership and iteration order are
ever consumed).  Machine timing (`time.perf_counter`) is abstracted by a
deterministic per-task `elapsed` figure, and the opaque `_stable_hash` of
`(input_, run_config)` (defined in `pypekit/utils.py`) is a function
parameter `stableHash`.  Exceptions are modelled with `Except`, mutation by
explicit state passing.
-/

/-- Reserved tag marking pipeline entry types (`SOURCE_TYPE = "source"`). -/
def SOURCE_TYPE : String := "source"

/-- Reserved tag marking pipeline exit types (`SINK_TYPE = "sink"`). -/
def SINK_TYPE : String := "sink"

/-- The data of a task class that the repository algorithms consult: its
class identity (`name`, Python's `__class__.__name__` together with the
class object's identity) and the `input_types` / `output_types` sets,
modelled as lists of tags. -/
structure TaskDef where
  name : String
  input_types : List String
  output_types : List String
deriving DecidableEq, Repr

/-- The sentinel root task (`class Root`): no inputs, sole output
`"source"`. -/
def ROOT_TASK : TaskDef := ⟨"Root", [], [SOURCE_TYPE]⟩

/-- Truthiness of `a.intersection(b)` for two type sets, as used by
`Node.add_child`, `Repository._build_tree_recursive` and
`Pipeline._add_task`. -/
def typesIntersect (a b : List String) : Bool :=
  a.any fun x => b.contains x

mutual
/-- A vertex of the synthesis tree (`class Node`): a task plus the owned,
ordered list of children.  The non-owning `parent` back-reference of the
Python object is not represented; the pruning pass that consults it is
embedded as the equivalent bottom-up rebuild `pruneNode` below. -/
inductive Node : Type where
  | mk : TaskDef → NodeList → Node
deriving DecidableEq, Repr
/-- An owned, ordered list of children (`Node.children`). -/
inductive NodeList : Type where
  | nil : NodeList
  | cons : Node → NodeList → NodeList
deriving DecidableEq, Repr
end

def Node.task : Node → TaskDef
  | .mk t _ => t

def Node.children : Node → NodeList
  | .mk _ cs => cs

def NodeList.ofList : List Node → NodeList
  | [] => .nil
  | c :: cs => .cons c (NodeList.ofList cs)

def NodeList.toList : NodeList → List Node
  | .nil => []
  | .cons c cs => c :: cs.toList

/-- The candidate classes for the children of a node holding task `t`:
`available_task_classes = self.task_classes - visited_nodes` followed by the
intersection filter of `_build_tree_recursive` (lines 176-181).  Python
iterates the fresh set difference in an unspecified, hash-dependent order;
the embedding fixes one order by filtering the master list in place, which
is faithful for membership (the properties proved here) but makes any
child-ordering statement a modelling choice rather than a program
property. -/
def nextCandidates (tcs : List TaskDef) (t : TaskDef) (visited : List TaskDef) :
    List TaskDef :=
  tcs.filter fun tc => decide (tc ∉ visited) && typesIntersect t.output_types tc.input_types

/-- The recursive tree expansion `Repository._build_tree_recursive`.

Python expands the node at depth `d` iff `d ≤ max_depth` (the guard
`if depth > max_depth` forces a leaf).  A node at depth `d` therefore
carries remaining fuel `max_depth + 1 - d`: `fuel = 0` is exactly the
`depth > max_depth` forced-leaf case, and a child receives `fuel - 1`
(depth `d + 1`).  The root (depth 0) is started with fuel
`max_depth + 1` by `buildTree` below.  Per source line 188 the child is
expanded with `visited_nodes | {task_class}` — its own class added to the
path's visited set. -/
def buildTreeFuel (tcs : List TaskDef) : Nat → List TaskDef → TaskDef → Node
  | 0, _, t => Node.mk t .nil
  | fuel + 1, visited, t =>
    Node.mk t (NodeList.ofList ((nextCandidates tcs t visited).map
      fun tc => buildTreeFuel tcs fuel (tc :: visited) tc))

mutual
/-- The pruning pass (`Repository._prune_tree` / `_prune_tree_recursive`,
lines 191-202), expressed as the equivalent bottom-up rebuild: every
non-sink childless node is removed, a node whose children are all removed
becomes childless and is subjected to the same test, and a node keeping at
least one child survives.  `none` means the node itself is removed. -/
def pruneNode : Node → Option Node
  | .mk t cs =>
    match pruneChildren cs with
    | .nil =>
      if decide (SINK_TYPE ∈ t.output_types) then some (Node.mk t .nil) else none
    | .cons c' cs' => some (Node.mk t (.cons c' cs'))
def pruneChildren : NodeList → NodeList
  | .nil => .nil
  | .cons c cs =>
    match pruneNode c with
    | none => pruneChildren cs
    | some c' => .cons c' (pruneChildren cs)
end

mutual
/-- The childless nodes of a tree, in depth-first order.  After
`build_tree` returns, `self.leaves` holds exactly the childless nodes of
the pruned tree (each appended once during expansion or pruning), plus any
stale leaves surviving from an earlier call (see `buildTree`). -/
def leavesOf : Node → List Node
  | .mk t .nil => [Node.mk t .nil]
  | .mk _ (.cons c cs) => leavesOfList (.cons c cs)
def leavesOfList : NodeList → List Node
  | .nil => []
  | .cons c cs => leavesOf c ++ leavesOfList cs
end

mutual
/-- The root-to-leaf task paths of a tree (each path starts with the
tree's own task); auxiliary notion used to reason about
`build_pipelines`. -/
def pathsOf : Node → List (List TaskDef)
  | .mk t .nil => [[t]]
  | .mk t (.cons c cs) => (pathsOfList (.cons c cs)).map fun q => t :: q
def pathsOfList : NodeList → List (List TaskDef)
  | .nil => []
  | .cons c cs => pathsOf c ++ pathsOfList cs
end

mutual
/-- `Repository._build_pipelines_recursive` (lines 237-242): at a childless
node the accumulated path minus the sentinel root plus the node's own task
becomes a pipeline (`tasks[1:] + [node.task]`); otherwise recurse into
every child in creation order with `tasks + [node.task]`. -/
def buildPipelinesRec : Node → List TaskDef → List (List TaskDef)
  | .mk t .nil, tasks => [tasks.drop 1 ++ [t]]
  | .mk t (.cons c cs), tasks => pipelinesOfList (.cons c cs) (tasks ++ [t])
def pipelinesOfList : NodeList → List TaskDef → List (List TaskDef)
  | .nil, _ => []
  | .cons c cs, tasks => buildPipelinesRec c tasks ++ pipelinesOfList cs tasks
end

/-- The mutable state of a `Repository` object (`__init__`, lines 146-152):
the task-class set (as its iteration order), `root`, `leaves` and the
pipelines of the last `build_pipelines` call.  `tree_string` is diagnostic
only and not modelled. -/
structure RepoState where
  task_classes : List TaskDef
  root : Option Node
  leaves : List Node
  pipelines : List (List TaskDef)
deriving Repr

/-- A freshly constructed repository (`Repository.__init__`). -/
def freshRepository (tcs : List TaskDef) : RepoState :=
  { task_classes := tcs, root := none, leaves := [], pipelines := [] }

/-- The single error message `build_tree` raises (line 167). -/
def EMPTY_TREE_MSG : String :=
  "Tree is empty. Check your input_types and output_types."

/-- Whether a leaf left over in `self.leaves` from an earlier `build_tree`
call survives the pruning pass of a later call: `_prune_tree_recursive`
keeps a node iff it still has children or carries `"sink"` among its
output types. -/
def staleLeafKept (n : Node) : Bool :=
  !(n.children.toList.isEmpty) || decide (SINK_TYPE ∈ n.task.output_types)

/-- `Repository.build_tree` (lines 154-168): build the raw tree from the
sentinel root, prune it, and fail with `EMPTY_TREE_MSG` when no leaf
remains.  `self.leaves` is *not* reset at the start of the call, so leaves
of an earlier call are re-subjected to pruning and, when kept, accumulate
in front of the new tree's leaves.  On failure `self.root` is reset to
`none`; on success it holds the pruned tree (the mutated root object),
which is a childless `Root` node when the new tree was pruned away entirely
while stale leaves kept the leaf list non-empty.  The embedded leaves list
is faithful in content and multiplicity but not in ordering: Python's
pruning pass appends cascade-created leaves at the end of `self.leaves`,
while this model lists the pruned tree's childless nodes in depth-first
order; no theorem below consumes the order. -/
def buildTree (st : RepoState) (maxDepth : Nat) : RepoState × Except String Node :=
  let raw := buildTreeFuel st.task_classes (maxDepth + 1) [] ROOT_TASK
  let keptStale := st.leaves.filter staleLeafKept
  match pruneNode raw with
  | some r =>
    ({ st with root := some r, leaves := keptStale ++ leavesOf r }, .ok r)
  | none =>
    if keptStale.isEmpty then
      ({ st with root := none, leaves := [] }, .error EMPTY_TREE_MSG)
    else
      ({ st with root := some (Node.mk ROOT_TASK .nil), leaves := keptStale },
        .ok (Node.mk ROOT_TASK .nil))

/-- The Python signature `build_tree(self, max_depth: int = sys.getrecursionlimit())`:
when the caller omits `max_depth`, the bound used is the host interpreter's
current recursion limit. -/
def buildTreeDefault (recursionLimit : Nat) (st : RepoState) :
    RepoState × Except String Node :=
  buildTree st recursionLimit

/-- `Repository.build_pipelines` (lines 225-235): fails when the tree has
not been built, otherwise resets `self.pipelines` and enumerates every
root-to-leaf path of the pruned tree, dropping the sentinel root. -/
def buildPipelines (st : RepoState) : RepoState × Except String (List (List TaskDef)) :=
  match st.root with
  | none => (st, .error "Tree has not been built yet.")
  | some r =>
    let ps := buildPipelinesRec r []
    ({ st with pipelines := ps }, .ok ps)

/-- `Pipeline.input_types` (lines 88-96): the first task's input types, or
the empty set for an empty pipeline. -/
def pipelineInputTypes (tasks : List TaskDef) : List String :=
  match tasks.head? with
  | none => []
  | some t => t.input_types

/-- `Pipeline.output_types` (lines 98-106): the last task's output types,
or the empty set for an empty pipeline. -/
def pipelineOutputTypes (tasks : List TaskDef) : List String :=
  match tasks.getLast? with
  | none => []
  | some t => t.output_types

/-- The name of the pipeline's current last task (`self.tasks[-1].__class__.__name__`). -/
def lastTaskName (tasks : List TaskDef) : String :=
  match tasks.getLast? with
  | none => ""
  | some t => t.name

/-- The `ValueError` message of `Pipeline._add_task` (lines 135-137),
naming the offending task and the current last task. -/
def typeMismatchMsg (taskName lastName : String) : String :=
  "Task " ++ taskName ++ " cannot be added to the pipeline. Input types do not match the output types of " ++ lastName ++ "."

/-- `Pipeline._add_task` (lines 131-137) as a state transformer on the
task list: on success the task is appended and no error is produced; on
type mismatch the list is unchanged (the exception is raised before any
mutation) and the error message is produced. -/
def addTaskState (tasks : List TaskDef) (t : TaskDef) :
    List TaskDef × Option String :=
  if typesIntersect t.input_types (pipelineOutputTypes tasks) || tasks.isEmpty then
    (tasks ++ [t], none)
  else
    (tasks, some (typeMismatchMsg t.name (lastTaskName tasks)))

/-- `Pipeline._add_task` in exception-flow form, used by `addTasks` (an
exception aborts the remaining additions and propagates). -/
def addTask (tasks : List TaskDef) (t : TaskDef) : Except String (List TaskDef) :=
  if typesIntersect t.input_types (pipelineOutputTypes tasks) || tasks.isEmpty then
    .ok (tasks ++ [t])
  else
    .error (typeMismatchMsg t.name (lastTaskName tasks))

/-- `Pipeline.add_tasks` (lines 108-114). -/
def addTasks (tasks : List TaskDef) (new : List TaskDef) :
    Except String (List TaskDef) :=
  match new with
  | [] => .ok tasks
  | t :: rest =>
    match addTask tasks t with
    | .error e => .error e
    | .ok tasks' => addTasks tasks' rest

/-- A task as `CachedExecutor` consumes it: its stable class name
(`__class__.__name__`, the identity appended to the cache signature), its
`run` behaviour — which may consult the attached `run_config` and may raise
— and the wall-clock duration of one execution, abstracted as the
deterministic figure `elapsed` standing in for the
`time.perf_counter()` difference of lines 305-307. -/
structure ExecTask (C V : Type) where
  name : String
  run : Option C → Option V → Except String V
  elapsed : Nat

/-- A pipeline as the executor consumes it: its `id` and ordered tasks. -/
structure ExecPipeline (C V : Type) where
  id : String
  tasks : List (ExecTask C V)

/-- A cache value (`{"output": ..., "runtime": ...}`, lines 308-311). -/
structure CacheEntry (V : Type) where
  output : V
  runtime : Nat
deriving DecidableEq

/-- The executor's cache dict keyed by signature strings.  Stored as an
association list: insertion prepends, lookup takes the first (most recent)
binding, giving the overwrite semantics of a Python dict. -/
abbrev Cache (V : Type) := List (String × CacheEntry V)

def cacheLookup {V : Type} : Cache V → String → Option (CacheEntry V)
  | [], _ => none
  | (k, e) :: rest, s => if k = s then some e else cacheLookup rest s

/-- The signature strings present in the cache. -/
def cacheKeys {V : Type} (cache : Cache V) : List String :=
  cache.map fun e => e.1

/-- `CachedExecutor._run_pipeline` (lines 289-313), one task at a time.
`sig` is the running `task_signature`; each step appends `">" + name`,
adopts the cached `{output, runtime}` on a hit, and otherwise executes the
task (raising aborts with the already-updated cache kept — the Python
`self.cache` mutations before the raise persist) and stores the entry.
The third component is the trace of signatures at which a task's `run` was
actually invoked (the cache misses), the embedding's observation of which
computations happened; a cache hit contributes nothing to it.  The
`if run_config: task.run_config = run_config` attachment is modelled by
passing `cfg` to `run`. -/
def runPipelineGo {C V : Type} (cfg : Option C) :
    List (ExecTask C V) → String → Option V → Cache V → Nat →
    Except String (Option V × Nat) × Cache V × List String
  | [], _, input, cache, rt => (.ok (input, rt), cache, [])
  | t :: ts, sig, input, cache, rt =>
    match cacheLookup cache (sig ++ ">" ++ t.name) with
    | some e =>
      runPipelineGo cfg ts (sig ++ ">" ++ t.name) (some e.output) cache (rt + e.runtime)
    | none =>
      match t.run cfg input with
      | .error msg => (.error msg, cache, [sig ++ ">" ++ t.name])
      | .ok v =>
        let R := runPipelineGo cfg ts (sig ++ ">" ++ t.name) (some v)
          ((sig ++ ">" ++ t.name, ⟨v, t.elapsed⟩) :: cache) (rt + t.elapsed)
        (R.1, R.2.1, (sig ++ ">" ++ t.name) :: R.2.2)

/-- `CachedExecutor._run_pipeline` from the top: the running signature is
seeded with `_stable_hash({"input_": input_, "run_config": run_config})`,
supplied as the opaque deterministic function `stableHash`. -/
def runPipeline {C V : Type} (stableHash : Option V → Option C → String)
    (cfg : Option C) (input : Option V) (p : ExecPipeline C V) (cache : Cache V) :
    Except String (Option V × Nat) × Cache V × List String :=
  runPipelineGo cfg p.tasks (stableHash input cfg) input cache 0

/-- One entry of `CachedExecutor.results` (lines 272-282). -/
structure PipelineResult (V : Type) where
  output : Option V
  runtime : Option Nat
  tasks : List String
deriving DecidableEq

/-- The result record written for one pipeline (lines 270-282): on an
exception `{output: None, runtime: None, tasks}`, otherwise the returned
output and total runtime with the task identity list. -/
def mkResult {V : Type} (res : Except String (Option V × Nat))
    (names : List String) : PipelineResult V :=
  match res with
  | .error _ => PipelineResult.mk none none names
  | .ok (out, rt) => PipelineResult.mk out (some rt) names

/-- `CachedExecutor.run` (lines 257-287): pipelines in order, each one's
exception caught and recorded as `{output: None, runtime: None, tasks}`,
the cache threaded through (and kept across failures).  Results are the
`(pipeline.id, record)` assignments in execution order; the third component
concatenates the per-pipeline execution traces. -/
def execRunGo {C V : Type} (stableHash : Option V → Option C → String)
    (cfg : Option C) (input : Option V) :
    List (ExecPipeline C V) → Cache V →
    List (String × PipelineResult V) × Cache V × List String
  | [], cache => ([], cache, [])
  | p :: ps, cache =>
    let R := runPipelineGo cfg p.tasks (stableHash input cfg) input cache 0
    let record := mkResult R.1 (p.tasks.map ExecTask.name)
    let rest := execRunGo stableHash cfg input ps R.2.1
    ((p.id, record) :: rest.1, rest.2.1, R.2.2 ++ rest.2.2)

/-- A call `executor.run(input_, run_config)` on an executor holding
`pipelines` whose cache currently holds `cache` (the constructor seeds it
with `cache or {}`). -/
def execRun {C V : Type} (stableHash : Option V → Option C → String)
    (pipelines : List (ExecPipeline C V)) (cache : Cache V)
    (input : Option V) (cfg : Option C) :
    List (String × PipelineResult V) × Cache V × List String :=
  execRunGo stableHash cfg input pipelines cache

/-- The signature reached after consuming the named tasks:
`h + ">" + n1 + ">" + n2 + ...`. -/
def sigFor (h : String) (names : List String) : String :=
  names.foldl (fun s n => s ++ ">" ++ n) h

/-- The successive signatures of a task list starting from `sig`. -/
def sigsOf {C V : Type} (sig : String) : List (ExecTask C V) → List String
  | [] => []
  | t :: ts => (sig ++ ">" ++ t.name) :: sigsOf (sig ++ ">" ++ t.name) ts

/-- Number of occurrences of a signature in an execution trace. -/
def occurrences (s : String) (l : List String) : Nat :=
  (l.filter fun x => decide (x = s)).length

/-- Every task that would be reached exactly at signature `s` while
processing `tasks` from running signature `sig` runs without raising. -/
def SigGuard {C V : Type} (cfg : Option C) (s sig : String)
    (tasks : List (ExecTask C V)) : Prop :=
  ∀ (done : List (ExecTask C V)) (t : ExecTask C V) (rest : List (ExecTask C V)),
    tasks = done ++ t :: rest →
    sigFor sig ((done ++ [t]).map ExecTask.name) = s →
    ∀ inp, ∃ v, t.run cfg inp = Except.ok v

/-- Character-level view of signature concatenation: each consumed name is
preceded by the `\x3e` separator. -/
def sepJoin (ls : List (List Char)) : List Char :=
  ls.flatMap fun l => '>' :: l

/-! Concrete demonstration data used by witnesses and counterexamples. -/

def demoA : TaskDef := ⟨"A", [SOURCE_TYPE], ["x"]⟩
def demoB : TaskDef := ⟨"B", ["x"], [SINK_TYPE]⟩
def demoC : TaskDef := ⟨"C", ["x"], [SINK_TYPE]⟩
def demoS : TaskDef := ⟨"S", [SOURCE_TYPE], [SINK_TYPE]⟩
def demoAS : TaskDef := ⟨"A", [SOURCE_TYPE], ["x", SINK_TYPE]⟩

def execA : ExecTask Nat Nat := ⟨"A", fun _ _ => .ok 1, 5⟩
def execB : ExecTask Nat Nat := ⟨"B", fun _ v => .ok (v.getD 0 + 1), 3⟩
def execBoom : ExecTask Nat Nat := ⟨"F", fun _ _ => .error "boom", 2⟩
def demoHash : Option Nat → Option Nat → String := fun _ _ => "H"
def execP1 : ExecPipeline Nat Nat := ⟨"p1", [execA, execB]⟩
def execP2 : ExecPipeline Nat Nat := ⟨"p2", [execA, execBoom]⟩
def execPfail : ExecPipeline Nat Nat := ⟨"pf", [execBoom]⟩
def execPok : ExecPipeline Nat Nat := ⟨"po", [execA]⟩

instance {ε α : Type} [DecidableEq ε] [DecidableEq α] : DecidableEq (Except ε α) :=
  fun a b =>
    match a, b with
    | .ok x, .ok y =>
      match decEq x y with
      | isTrue h => isTrue (by rw [h])
      | isFalse h => isFalse (by intro hc; cases hc; exact h rfl)
    | .error x, .error y =>
      match decEq x y with
      | isTrue h => isTrue (by rw [h])
      | isFalse h => isFalse (by intro hc; cases hc; exact h rfl)
    | .ok _, .error _ => isFalse (by intro hc; cases hc)
    | .error _, .ok _ => isFalse (by intro hc; cases hc)

mutual
/-- Mutual induction for `Node` and `NodeList`. -/
theorem nodeIndAux (P : Node → Prop) (Q : NodeList → Prop)
    (h1 : ∀ t cs, Q cs → P (.mk t cs)) (h2 : Q .nil)
    (h3 : ∀ c cs, P c → Q cs → Q (.cons c cs)) : ∀ n, P n
  | .mk t cs => h1 t cs (nodeListIndAux P Q h1 h2 h3 cs)
theorem nodeListIndAux (P : Node → Prop) (Q : NodeList → Prop)
    (h1 : ∀ t cs, Q cs → P (.mk t cs)) (h2 : Q .nil)
    (h3 : ∀ c cs, P c → Q cs → Q (.cons c cs)) : ∀ cs, Q cs
  | .nil => h2
  | .cons c cs =>
    h3 c cs (nodeIndAux P Q h1 h2 h3 c) (nodeListIndAux P Q h1 h2 h3 cs)
end

/-- Member-based induction over the tree. -/
theorem Node.inductionOn (P : Node → Prop)
    (h : ∀ t cs, (∀ c ∈ cs.toList, P c) → P (.mk t cs)) : ∀ n, P n := by
  refine nodeIndAux P (fun cs => ∀ c ∈ cs.toList, P c) h ?_ ?_
  · intro c hc
    simp [NodeList.toList] at hc
  · intro c cs hp hq c' hc'
    simp only [NodeList.toList, List.mem_cons] at hc'
    rcases hc' with rfl | hc'
    · exact hp
    · exact hq c' hc'

theorem NodeList.toList_ofList : ∀ l : List Node, (NodeList.ofList l).toList = l
  | [] => rfl
  | c :: cs => by rw [NodeList.ofList, NodeList.toList, NodeList.toList_ofList cs]

theorem Node.task_mk (t : TaskDef) (cs : NodeList) : (Node.mk t cs).task = t := rfl

theorem Node.children_mk (t : TaskDef) (cs : NodeList) :
    (Node.mk t cs).children = cs := rfl

theorem buildTreeFuel_task (tcs : List TaskDef) (fuel : Nat) (visited : List TaskDef)
    (t : TaskDef) : (buildTreeFuel tcs fuel visited t).task = t := by
  cases fuel <;> rfl

theorem buildTreeFuel_zero (tcs visited : List TaskDef) (t : TaskDef) :
    buildTreeFuel tcs 0 visited t = Node.mk t .nil := rfl

theorem buildTreeFuel_succ (tcs : List TaskDef) (fuel : Nat) (visited : List TaskDef)
    (t : TaskDef) :
    buildTreeFuel tcs (fuel + 1) visited t =
      Node.mk t (NodeList.ofList ((nextCandidates tcs t visited).map
        fun tc => buildTreeFuel tcs fuel (tc :: visited) tc)) := rfl

theorem mem_nextCandidates {tcs : List TaskDef} {t : TaskDef} {visited : List TaskDef}
    {tc : TaskDef} :
    tc ∈ nextCandidates tcs t visited ↔
      tc ∈ tcs ∧ tc ∉ visited ∧ typesIntersect t.output_types tc.input_types = true := by
  simp [nextCandidates, and_assoc]

theorem typesIntersect_iff {a b : List String} :
    typesIntersect a b = true ↔ ∃ x, x ∈ a ∧ x ∈ b := by
  simp [typesIntersect, List.any_eq_true]

theorem leavesOfList_eq : ∀ cs : NodeList,
    leavesOfList cs = cs.toList.flatMap leavesOf
  | .nil => rfl
  | .cons c cs => by
    rw [leavesOfList, NodeList.toList, List.flatMap_cons, leavesOfList_eq cs]

theorem pathsOfList_eq : ∀ cs : NodeList,
    pathsOfList cs = cs.toList.flatMap pathsOf
  | .nil => rfl
  | .cons c cs => by
    rw [pathsOfList, NodeList.toList, List.flatMap_cons, pathsOfList_eq cs]

theorem pipelinesOfList_eq : ∀ (cs : NodeList) (tasks : List TaskDef),
    pipelinesOfList cs tasks = cs.toList.flatMap (fun c => buildPipelinesRec c tasks)
  | .nil, _ => rfl
  | .cons c cs, tasks => by
    rw [pipelinesOfList, NodeList.toList, List.flatMap_cons, pipelinesOfList_eq cs]

theorem pruneChildren_eq : ∀ cs : NodeList,
    (pruneChildren cs).toList = cs.toList.filterMap pruneNode
  | .nil => rfl
  | .cons c cs => by
    rw [pruneChildren, NodeList.toList, List.filterMap_cons]
    cases pruneNode c with
    | none => exact pruneChildren_eq cs
    | some c' => rw [NodeList.toList, pruneChildren_eq cs]

theorem mem_pruneChildren {cs : NodeList} {c' : Node} :
    c' ∈ (pruneChildren cs).toList ↔ ∃ c ∈ cs.toList, pruneNode c = some c' := by
  rw [pruneChildren_eq]
  simp [List.mem_filterMap]

/-- Pruning keeps the node's task (`_prune_tree_recursive` never edits
`node.task`). -/
theorem pruneNode_task {n n' : Node} (h : pruneNode n = some n') :
    n'.task = n.task := by
  cases n with
  | mk t cs =>
    rw [pruneNode] at h
    split at h
    · split at h
      · cases h; rfl
      · cases h
    · cases h; rfl

theorem pathsOf_ne_nil : ∀ n : Node, pathsOf n ≠ [] := by
  refine Node.inductionOn _ ?_
  intro t cs ih
  cases cs with
  | nil => simp [pathsOf]
  | cons c cs' =>
    rw [pathsOf]
    simp only [ne_eq, List.map_eq_nil_iff]
    rw [pathsOfList]
    have := ih c (by simp [NodeList.toList])
    simp [this]

theorem leavesOf_ne_nil : ∀ n : Node, leavesOf n ≠ [] := by
  refine Node.inductionOn _ ?_
  intro t cs ih
  cases cs with
  | nil => simp [leavesOf]
  | cons c cs' =>
    rw [leavesOf, leavesOfList]
    have := ih c (by simp [NodeList.toList])
    simp [this]

theorem mem_pathsOf_cons {n : Node} {pth : List TaskDef} (h : pth ∈ pathsOf n) :
    ∃ q, pth = n.task :: q := by
  cases n with
  | mk t cs =>
    cases cs with
    | nil =>
      rw [pathsOf] at h
      simp only [List.mem_singleton] at h
      exact ⟨[], by simp [h, Node.task]⟩
    | cons c cs' =>
      rw [pathsOf] at h
      rcases List.mem_map.mp h with ⟨q, _, rfl⟩
      exact ⟨q, rfl⟩

theorem mem_pathsOf_getLast : ∀ n : Node, ∀ pth ∈ pathsOf n,
    ∃ l ∈ leavesOf n, pth.getLast? = some l.task := by
  refine Node.inductionOn _ ?_
  intro t cs ih pth hp
  cases cs with
  | nil =>
    rw [pathsOf] at hp
    simp only [List.mem_singleton] at hp
    subst hp
    exact ⟨Node.mk t .nil, by simp [leavesOf], rfl⟩
  | cons c cs' =>
    rw [pathsOf] at hp
    rcases List.mem_map.mp hp with ⟨q, hq, rfl⟩
    rw [pathsOfList_eq] at hq
    rcases List.mem_flatMap.mp hq with ⟨c', hc', hqc⟩
    rcases ih c' hc' q hqc with ⟨l, hl, hlast⟩
    refine ⟨l, ?_, ?_⟩
    · rw [leavesOf, leavesOfList_eq]
      exact List.mem_flatMap.mpr ⟨c', hc', hl⟩
    · rcases mem_pathsOf_cons hqc with ⟨q', rfl⟩
      rw [List.getLast?_cons_cons]
      exact hlast

/-- Every leaf of a pruned tree carries `"sink"`: this is the guarantee of
`Repository._prune_tree_recursive` (a childless node without `"sink"` in
its output types is removed, recursively). -/
theorem pruneNode_leaves_sink : ∀ n : Node, ∀ n' : Node, pruneNode n = some n' →
    ∀ l ∈ leavesOf n', SINK_TYPE ∈ l.task.output_types := by
  refine Node.inductionOn _ ?_
  intro t cs ih n' h l hl
  rw [pruneNode] at h
  split at h
  · split at h
    · cases h
      rw [leavesOf] at hl
      simp only [List.mem_singleton] at hl
      subst hl
      simp only [Node.task]
      exact of_decide_eq_true (by assumption)
    · cases h
  · rename_i c' cs' heq
    cases h
    rw [leavesOf, leavesOfList_eq] at hl
    rcases List.mem_flatMap.mp hl with ⟨c'', hc'', hlc⟩
    rw [← heq] at hc''
    rcases mem_pruneChildren.mp hc'' with ⟨c, hc, hpc⟩
    exact ih c hc c'' hpc l hlc

/-- The per-path visited-set discipline of `_build_tree_recursive`: below a
node every child's class avoids the visited set `V` of the path so far, and
its own subtree obeys the discipline for `V` extended with its own class. -/
inductive VisitedInv : List TaskDef → Node → Prop where
  | mk : ∀ (V : List TaskDef) (t : TaskDef) (cs : NodeList),
      (∀ c ∈ cs.toList, c.task ∉ V) →
      (∀ c ∈ cs.toList, VisitedInv (c.task :: V) c) →
      VisitedInv V (Node.mk t cs)

/-- Every parent→child edge satisfies the type-intersection check (this is
both the candidate filter of `_build_tree_recursive` and the invariant
validated by `Node.add_child`). -/
inductive EdgesCompat : Node → Prop where
  | mk : ∀ (t : TaskDef) (cs : NodeList),
      (∀ c ∈ cs.toList, typesIntersect t.output_types c.task.input_types = true) →
      (∀ c ∈ cs.toList, EdgesCompat c) →
      EdgesCompat (Node.mk t cs)

theorem buildTreeFuel_children_toList (tcs : List TaskDef) (fuel : Nat)
    (visited : List TaskDef) (t : TaskDef) :
    (buildTreeFuel tcs (fuel + 1) visited t).children.toList =
      (nextCandidates tcs t visited).map fun tc => buildTreeFuel tcs fuel (tc :: visited) tc := by
  rw [buildTreeFuel_succ, Node.children_mk, NodeList.toList_ofList]

theorem buildTreeFuel_visitedInv (tcs : List TaskDef) :
    ∀ (fuel : Nat) (V : List TaskDef) (t : TaskDef),
      VisitedInv V (buildTreeFuel tcs fuel V t) := by
  intro fuel
  induction fuel with
  | zero =>
    intro V t
    exact .mk V t .nil (by simp [NodeList.toList]) (by simp [NodeList.toList])
  | succ fuel ih =>
    intro V t
    rw [buildTreeFuel_succ]
    refine .mk V t _ ?_ ?_
    · intro c hc
      rw [NodeList.toList_ofList] at hc
      rcases List.mem_map.mp hc with ⟨tc, htc, rfl⟩
      rw [buildTreeFuel_task]
      exact (mem_nextCandidates.mp htc).2.1
    · intro c hc
      rw [NodeList.toList_ofList] at hc
      rcases List.mem_map.mp hc with ⟨tc, _, rfl⟩
      rw [buildTreeFuel_task]
      exact ih (tc :: V) tc

theorem buildTreeFuel_edgesCompat (tcs : List TaskDef) :
    ∀ (fuel : Nat) (V : List TaskDef) (t : TaskDef),
      EdgesCompat (buildTreeFuel tcs fuel V t) := by
  intro fuel
  induction fuel with
  | zero =>
    intro V t
    exact .mk t .nil (by simp [NodeList.toList]) (by simp [NodeList.toList])
  | succ fuel ih =>
    intro V t
    rw [buildTreeFuel_succ]
    refine .mk t _ ?_ ?_
    · intro c hc
      rw [NodeList.toList_ofList] at hc
      rcases List.mem_map.mp hc with ⟨tc, htc, rfl⟩
      rw [buildTreeFuel_task]
      exact (mem_nextCandidates.mp htc).2.2
    · intro c hc
      rw [NodeList.toList_ofList] at hc
      rcases List.mem_map.mp hc with ⟨tc, _, rfl⟩
      exact ih (tc :: V) tc

theorem pruneNode_visitedInv : ∀ n : Node, ∀ (V : List TaskDef) (n' : Node),
    pruneNode n = some n' → VisitedInv V n → VisitedInv V n' := by
  refine Node.inductionOn _ ?_
  intro t cs ih V n' h hinv
  rcases hinv with ⟨_, _, _, hmem, hrec⟩
  rw [pruneNode] at h
  split at h
  · split at h
    · cases h
      exact .mk V t .nil (by simp [NodeList.toList]) (by simp [NodeList.toList])
    · cases h
  · rename_i c' cs' heq
    cases h
    refine .mk V t (.cons c' cs') ?_ ?_
    · intro c'' hc''
      rw [← heq] at hc''
      rcases mem_pruneChildren.mp hc'' with ⟨c, hc, hpc⟩
      rw [pruneNode_task hpc]
      exact hmem c hc
    · intro c'' hc''
      rw [← heq] at hc''
      rcases mem_pruneChildren.mp hc'' with ⟨c, hc, hpc⟩
      have := ih c hc (c.task :: V) c'' hpc (hrec c hc)
      rwa [pruneNode_task hpc]

theorem pruneNode_edgesCompat : ∀ n : Node, ∀ n' : Node,
    pruneNode n = some n' → EdgesCompat n → EdgesCompat n' := by
  refine Node.inductionOn _ ?_
  intro t cs ih n' h hinv
  rcases hinv with ⟨_, _, hmem, hrec⟩
  rw [pruneNode] at h
  split at h
  · split at h
    · cases h
      exact .mk t .nil (by simp [NodeList.toList]) (by simp [NodeList.toList])
    · cases h
  · rename_i c' cs' heq
    cases h
    refine .mk t (.cons c' cs') ?_ ?_
    · intro c'' hc''
      rw [← heq] at hc''
      rcases mem_pruneChildren.mp hc'' with ⟨c, hc, hpc⟩
      rw [pruneNode_task hpc]
      exact hmem c hc
    · intro c'' hc''
      rw [← heq] at hc''
      rcases mem_pruneChildren.mp hc'' with ⟨c, hc, hpc⟩
      exact ih c hc c'' hpc (hrec c hc)

theorem visitedInv_paths : ∀ n : Node, ∀ (V : List TaskDef),
    VisitedInv V n → ∀ pth ∈ pathsOf n,
      pth.tail.Nodup ∧ ∀ x ∈ pth.tail, x ∉ V := by
  refine Node.inductionOn _ ?_
  intro t cs ih V hinv pth hp
  rcases hinv with ⟨_, _, _, hmem, hrec⟩
  cases cs with
  | nil =>
    rw [pathsOf] at hp
    simp only [List.mem_singleton] at hp
    subst hp
    simp
  | cons c cs' =>
    rw [pathsOf] at hp
    rcases List.mem_map.mp hp with ⟨q, hq, rfl⟩
    rw [pathsOfList_eq] at hq
    rcases List.mem_flatMap.mp hq with ⟨c', hc', hqc⟩
    rcases ih c' hc' (c'.task :: V) (hrec c' hc') q hqc with ⟨hnd, havoid⟩
    rcases mem_pathsOf_cons hqc with ⟨q', rfl⟩
    simp only [List.tail_cons]
    constructor
    · rw [List.nodup_cons]
      refine ⟨?_, hnd⟩
      intro hxin
      exact havoid c'.task hxin (by simp)
    · intro x hx
      rcases List.mem_cons.mp hx with rfl | hx'
      · exact hmem c' hc'
      · intro hxV
        exact havoid x hx' (List.mem_cons_of_mem _ hxV)

theorem edgesCompat_paths_chain : ∀ n : Node,
    EdgesCompat n → ∀ pth ∈ pathsOf n,
      List.Chain' (fun a b => typesIntersect a.output_types b.input_types = true) pth := by
  refine Node.inductionOn _ ?_
  intro t cs ih hinv pth hp
  rcases hinv with ⟨_, _, hmem, hrec⟩
  cases cs with
  | nil =>
    rw [pathsOf] at hp
    simp only [List.mem_singleton] at hp
    subst hp
    simp
  | cons c cs' =>
    rw [pathsOf] at hp
    rcases List.mem_map.mp hp with ⟨q, hq, rfl⟩
    rw [pathsOfList_eq] at hq
    rcases List.mem_flatMap.mp hq with ⟨c', hc', hqc⟩
    have hchain := ih c' hc' (hrec c' hc') q hqc
    rcases mem_pathsOf_cons hqc with ⟨q', rfl⟩
    exact List.chain'_cons.mpr ⟨hmem c' hc', hchain⟩

theorem edgesCompat_paths_inputs : ∀ n : Node,
    EdgesCompat n → n.task.input_types ≠ [] → ∀ pth ∈ pathsOf n,
      ∀ x ∈ pth, x.input_types ≠ [] := by
  refine Node.inductionOn _ ?_
  intro t cs ih hinv hne pth hp x hx
  rcases hinv with ⟨_, _, hmem, hrec⟩
  cases cs with
  | nil =>
    rw [pathsOf] at hp
    simp only [List.mem_singleton] at hp
    subst hp
    simp only [List.mem_singleton] at hx
    subst hx
    exact hne
  | cons c cs' =>
    rw [pathsOf] at hp
    rcases List.mem_map.mp hp with ⟨q, hq, rfl⟩
    rw [pathsOfList_eq] at hq
    rcases List.mem_flatMap.mp hq with ⟨c', hc', hqc⟩
    rcases List.mem_cons.mp hx with rfl | hx'
    · exact hne
    · have hcin : c'.task.input_types ≠ [] := by
        rcases typesIntersect_iff.mp (hmem c' hc') with ⟨s, _, hs⟩
        intro hcon
        rw [hcon] at hs
        cases hs
      exact ih c' hc' (hrec c' hc') hcin q hqc x hx'

theorem listFlatMapCongr {α β : Type} : ∀ (l : List α) (f g : α → List β),
    (∀ a ∈ l, f a = g a) → l.flatMap f = l.flatMap g
  | [], _, _, _ => rfl
  | a :: l, f, g, h => by
    rw [List.flatMap_cons, List.flatMap_cons, h a (by simp),
      listFlatMapCongr l f g (fun a ha => h a (by simp [ha]))]

theorem buildPipelinesRec_eq_paths : ∀ n : Node, ∀ acc : List TaskDef, acc ≠ [] →
    buildPipelinesRec n acc = (pathsOf n).map fun q => acc.drop 1 ++ q := by
  refine Node.inductionOn _ ?_
  intro t cs ih acc hacc
  have hd : (acc ++ [t]).drop 1 = acc.drop 1 ++ [t] := by
    cases acc with
    | nil => exact absurd rfl hacc
    | cons a acc' => simp
  cases cs with
  | nil =>
    rw [buildPipelinesRec, pathsOf]
    simp
  | cons c cs' =>
    rw [buildPipelinesRec, pathsOf, pipelinesOfList_eq, pathsOfList_eq,
      List.map_map, List.map_flatMap]
    refine listFlatMapCongr _ _ _ ?_
    intro c' hc'
    rw [ih c' hc' (acc ++ [t]) (by simp), hd]
    refine List.map_congr_left ?_
    intro q _
    simp [Function.comp, List.append_assoc]

theorem buildPipelinesRec_root (t : TaskDef) (c : Node) (cs : NodeList) :
    buildPipelinesRec (Node.mk t (.cons c cs)) [] =
      (NodeList.cons c cs).toList.flatMap pathsOf := by
  rw [buildPipelinesRec, pipelinesOfList_eq]
  refine listFlatMapCongr _ _ _ ?_
  intro c' hc'
  rw [show ([] : List TaskDef) ++ [t] = [t] from rfl,
    buildPipelinesRec_eq_paths c' [t] (by simp)]
  simp

/-- A type-compatible chain of tasks realized inside the tree: each listed
task labels a child one level deeper. -/
inductive ChainInTree : Node → List TaskDef → Prop where
  | nil : ∀ n, ChainInTree n []
  | cons : ∀ (n c : Node) (t : TaskDef) (ts : List TaskDef),
      c ∈ n.children.toList → c.task = t → ChainInTree c ts →
      ChainInTree n (t :: ts)

/-- Some descendant (or the node itself) carries `"sink"`. -/
inductive HasSinkDesc : Node → Prop where
  | self : ∀ n, SINK_TYPE ∈ n.task.output_types → HasSinkDesc n
  | child : ∀ (n c : Node), c ∈ n.children.toList → HasSinkDesc c → HasSinkDesc n

/-- A compatibility chain of distinct, unvisited repository tasks is
realized in the built tree whenever it fits in the remaining fuel. -/
theorem buildTreeFuel_chain (tcs : List TaskDef) :
    ∀ (ts : List TaskDef) (fuel : Nat) (V : List TaskDef) (t : TaskDef),
      (∀ x ∈ ts, x ∈ tcs) → (∀ x ∈ ts, x ∉ V) → ts.Nodup →
      List.Chain (fun a b => typesIntersect a.output_types b.input_types = true) t ts →
      ts.length ≤ fuel →
      ChainInTree (buildTreeFuel tcs fuel V t) ts := by
  intro ts
  induction ts with
  | nil => intro fuel V t _ _ _ _ _; exact .nil _
  | cons t' ts' ih =>
    intro fuel V t hin havoid hnd hchain hlen
    cases fuel with
    | zero => simp at hlen
    | succ f =>
      rcases List.chain_cons.mp hchain with ⟨hcompat, hchain'⟩
      have hcand : t' ∈ nextCandidates tcs t V :=
        mem_nextCandidates.mpr ⟨hin t' (by simp), havoid t' (by simp), hcompat⟩
      refine .cons _ (buildTreeFuel tcs f (t' :: V) t') t' ts' ?_ ?_ ?_
      · rw [buildTreeFuel_children_toList]
        exact List.mem_map.mpr ⟨t', hcand, rfl⟩
      · exact buildTreeFuel_task tcs f (t' :: V) t'
      · refine ih f (t' :: V) t' ?_ ?_ ?_ ?_ ?_
        · intro x hx; exact hin x (by simp [hx])
        · intro x hx
          simp only [List.mem_cons, not_or]
          refine ⟨?_, havoid x (by simp [hx])⟩
          rintro rfl
          exact (List.nodup_cons.mp hnd).1 hx
        · exact (List.nodup_cons.mp hnd).2
        · exact hchain'
        · simpa using Nat.le_of_succ_le_succ hlen

theorem chainInTree_hasSinkDesc : ∀ {n : Node} {ts : List TaskDef},
    ChainInTree n ts → ∀ lt, ts.getLast? = some lt →
    SINK_TYPE ∈ lt.output_types → HasSinkDesc n := by
  intro n ts h
  induction h with
  | nil => intro lt hlt _; cases hlt
  | cons n c t ts' hc htask _ ih =>
    intro lt hlt hsink
    cases ts' with
    | nil =>
      simp only [List.getLast?_singleton, Option.some_inj] at hlt
      subst hlt
      refine .child n c hc (.self c ?_)
      rw [htask]; exact hsink
    | cons a ts'' =>
      rw [List.getLast?_cons_cons] at hlt
      exact .child n c hc (ih lt hlt hsink)

theorem hasSinkDesc_prune : ∀ {n : Node}, HasSinkDesc n → (pruneNode n).isSome := by
  intro n h
  induction h with
  | self n hs =>
    cases n with
    | mk t cs =>
      rw [pruneNode]
      split
      · rw [if_pos (decide_eq_true (show SINK_TYPE ∈ t.output_types from hs))]
        rfl
      · rfl
  | child n c hc _ ih =>
    cases n with
    | mk t cs =>
      rcases Option.isSome_iff_exists.mp ih with ⟨c', hpc⟩
      have hmem : c' ∈ (pruneChildren cs).toList :=
        mem_pruneChildren.mpr ⟨c, hc, hpc⟩
      rw [pruneNode]
      split
      · rename_i heq
        rw [heq] at hmem
        simp [NodeList.toList] at hmem
      · rfl

/-- The fuel (depth) guard bounds the length of every root-to-leaf path of
the raw tree. -/
theorem pathsOf_buildTreeFuel_length (tcs : List TaskDef) :
    ∀ (fuel : Nat) (V : List TaskDef) (t : TaskDef),
      ∀ pth ∈ pathsOf (buildTreeFuel tcs fuel V t), pth.length ≤ fuel + 1 := by
  intro fuel
  induction fuel with
  | zero =>
    intro V t pth hp
    rw [buildTreeFuel_zero, pathsOf] at hp
    simp only [List.mem_singleton] at hp
    subst hp
    simp
  | succ f ih =>
    intro V t pth hp
    rw [buildTreeFuel_succ] at hp
    rcases hcand : (nextCandidates tcs t V).map
        (fun tc => buildTreeFuel tcs f (tc :: V) tc) with _ | ⟨c0, rest⟩
    · rw [hcand] at hp
      rw [show NodeList.ofList [] = NodeList.nil from rfl, pathsOf] at hp
      simp only [List.mem_singleton] at hp
      subst hp
      simp
    · rw [hcand] at hp
      rw [show NodeList.ofList (c0 :: rest) = NodeList.cons c0 (NodeList.ofList rest) from rfl,
        pathsOf] at hp
      rcases List.mem_map.mp hp with ⟨q, hq, rfl⟩
      rw [pathsOfList_eq, NodeList.toList, NodeList.toList_ofList] at hq
      rcases List.mem_flatMap.mp hq with ⟨c, hcm, hqc⟩
      have hcm' : c ∈ (nextCandidates tcs t V).map
          (fun tc => buildTreeFuel tcs f (tc :: V) tc) := by
        rw [hcand]; exact hcm
      rcases List.mem_map.mp hcm' with ⟨tc, _, rfl⟩
      have := ih (tc :: V) tc q hqc
      simpa [List.length_cons] using Nat.succ_le_succ this

/-- Pruning only shortens root-to-leaf paths. -/
theorem pruneNode_paths_le : ∀ n : Node, ∀ n' : Node, pruneNode n = some n' →
    ∀ pth' ∈ pathsOf n', ∃ pth ∈ pathsOf n, pth'.length ≤ pth.length := by
  refine Node.inductionOn _ ?_
  intro t cs ih n' h pth' hp'
  rw [pruneNode] at h
  split at h
  · split at h
    · cases h
      rw [pathsOf] at hp'
      simp only [List.mem_singleton] at hp'
      subst hp'
      rcases List.exists_mem_of_ne_nil _ (pathsOf_ne_nil (Node.mk t cs)) with ⟨pth, hpth⟩
      refine ⟨pth, hpth, ?_⟩
      rcases mem_pathsOf_cons hpth with ⟨q, rfl⟩
      simp
    · cases h
  · rename_i c' cs' heq
    cases h
    have hcsnil : cs ≠ .nil := by
      intro hcon
      subst hcon
      rw [pruneChildren] at heq
      cases heq
    rw [pathsOf] at hp'
    rcases List.mem_map.mp hp' with ⟨q', hq', rfl⟩
    rw [pathsOfList_eq] at hq'
    rcases List.mem_flatMap.mp hq' with ⟨c'', hc'', hqc'⟩
    rw [← heq] at hc''
    rcases mem_pruneChildren.mp hc'' with ⟨c, hc, hpc⟩
    rcases ih c hc c'' hpc q' hqc' with ⟨q, hq, hle⟩
    cases cs with
    | nil => exact absurd rfl hcsnil
    | cons c0 cs0 =>
      refine ⟨t :: q, ?_, by simpa using hle⟩
      rw [pathsOf]
      refine List.mem_map.mpr ⟨q, ?_, rfl⟩
      rw [pathsOfList_eq]
      exact List.mem_flatMap.mpr ⟨c, hc, hq⟩

theorem buildTree_fresh_of_prune {tcs : List TaskDef} {md : Nat} {r : Node}
    (h : pruneNode (buildTreeFuel tcs (md + 1) [] ROOT_TASK) = some r) :
    buildTree (freshRepository tcs) md =
      ({ task_classes := tcs, root := some r, leaves := leavesOf r,
         pipelines := [] }, .ok r) := by
  rw [buildTree]
  simp only [freshRepository, List.filter_nil, h, List.nil_append]

theorem buildTree_fresh_ok {tcs : List TaskDef} {md : Nat} {st' : RepoState} {r : Node}
    (h : buildTree (freshRepository tcs) md = (st', .ok r)) :
    pruneNode (buildTreeFuel tcs (md + 1) [] ROOT_TASK) = some r ∧
    st' = { task_classes := tcs, root := some r, leaves := leavesOf r,
            pipelines := [] } := by
  rcases hpr : pruneNode (buildTreeFuel tcs (md + 1) [] ROOT_TASK) with _ | r0
  · rw [buildTree] at h
    simp only [freshRepository, List.filter_nil, hpr, List.isEmpty_nil, if_true] at h
    rw [Prod.mk.injEq] at h
    exact absurd h.2 (by simp)
  · rw [buildTree] at h
    simp only [freshRepository, List.filter_nil, hpr, List.nil_append] at h
    rw [Prod.mk.injEq] at h
    obtain ⟨h1, h2⟩ := h
    rw [Except.ok.injEq] at h2
    subst h2
    exact ⟨rfl, h1.symm⟩

theorem pruned_root_shape {tcs : List TaskDef} {md : Nat} {r : Node}
    (h : pruneNode (buildTreeFuel tcs (md + 1) [] ROOT_TASK) = some r) :
    ∃ c cs, r = Node.mk ROOT_TASK (.cons c cs) := by
  have htask : r.task = ROOT_TASK := by
    rw [pruneNode_task h, buildTreeFuel_task]
  cases r with
  | mk t cs =>
    rw [Node.task_mk] at htask
    subst htask
    cases cs with
    | nil =>
      exfalso
      have hsink := pruneNode_leaves_sink _ _ h (Node.mk ROOT_TASK .nil)
        (by rw [leavesOf]; simp)
      rw [Node.task_mk] at hsink
      revert hsink
      decide
    | cons c cs' => exact ⟨c, cs', rfl⟩

theorem root_candidates_nil {tcs V : List TaskDef}
    (hnosource : ∀ tc ∈ tcs, SOURCE_TYPE ∉ tc.input_types) :
    nextCandidates tcs ROOT_TASK V = [] := by
  rw [nextCandidates, List.filter_eq_nil_iff]
  intro tc htc hcon
  rw [Bool.and_eq_true] at hcon
  rcases typesIntersect_iff.mp hcon.2 with ⟨x, hx1, hx2⟩
  have hxs : x = SOURCE_TYPE := by
    simpa [ROOT_TASK] using hx1
  subst hxs
  exact hnosource tc htc hx2

/-- C5 (amended).  The claim asserted a descriptive "no entry points"
failure distinct from the "empty tree" failure.  In `core.py` no such
distinct condition exists: when no task definition declares `"source"`
among its input types, the sentinel root gets no children, pruning removes
it, and `build_tree` raises the very same
`"Tree is empty. Check your input_types and output_types."` `ValueError`
(line 167) that is raised when pruning removes every leaf.  Amended claim:
for every repository in which no task declares `"source"`, `build_tree`
fails with that single empty-tree condition (state mutations: root reset to
`none`, no leaves). -/
theorem claim_C5 (tcs : List TaskDef) (md : Nat)
    (hnosource : ∀ tc ∈ tcs, SOURCE_TYPE ∉ tc.input_types) :
    buildTree (freshRepository tcs) md = (freshRepository tcs, .error EMPTY_TREE_MSG) := by
  have hraw : buildTreeFuel tcs (md + 1) [] ROOT_TASK = Node.mk ROOT_TASK .nil := by
    rw [buildTreeFuel_succ, root_candidates_nil hnosource]
    rfl
  rw [buildTree]
  simp only [freshRepository, List.filter_nil, hraw]
  rfl

/-- Witness for `claim_C5` on the concrete source-free repository
`[demoB]`. -/
theorem claim_C5_witness :
    buildTree (freshRepository [demoB]) 7 = (freshRepository [demoB], .error EMPTY_TREE_MSG) :=
  claim_C5 [demoB] 7 (by decide)

/-- C5, counterexample to the claim as stated: a repository with no
source-declaring task (`[demoB]`) fails with exactly the generic
`EMPTY_TREE_MSG`, the *same* condition produced when pruning removes every
leaf (repository `[demoA]`, whose only task never reaches a sink).  There
is no distinct "no entry points" condition in the code. -/
theorem claim_C5_counterexample :
    (buildTree (freshRepository [demoB]) 10).2 = .error EMPTY_TREE_MSG ∧
    (buildTree (freshRepository [demoA]) 10).2 = .error EMPTY_TREE_MSG :=
  ⟨rfl, rfl⟩

/-- C6 (amended).  The claim asserted that `build_tree` does *not* default
`max_depth` to a host call-stack limit; in fact the Python signature is
`build_tree(self, max_depth: int = sys.getrecursionlimit())`, modelled by
`buildTreeDefault`, whose bound *is* the host recursion limit (first
conjunct).  The depth-guard part of the claim is accurate: a node reached
with `depth > max_depth` (fuel `0`) is forced into a childless leaf and its
path is not expanded (second conjunct), hence every enumerated pipeline has
at most `max_depth + 1` tasks (third conjunct). -/
theorem claim_C6 :
    (∀ (recursionLimit : Nat) (st : RepoState),
      buildTreeDefault recursionLimit st = buildTree st recursionLimit) ∧
    (∀ (tcs visited : List TaskDef) (t : TaskDef),
      buildTreeFuel tcs 0 visited t = Node.mk t .nil) ∧
    (∀ (tcs : List TaskDef) (md : Nat) (st' st'' : RepoState) (r : Node)
      (ps : List (List TaskDef)),
      buildTree (freshRepository tcs) md = (st', .ok r) →
      buildPipelines st' = (st'', .ok ps) →
      ∀ p ∈ ps, p.length ≤ md + 1) := by
  refine ⟨fun _ _ => rfl, fun _ _ _ => rfl, ?_⟩
  intro tcs md st' st'' r ps hbt hbp p hp
  obtain ⟨hpr, hst⟩ := buildTree_fresh_ok hbt
  have hroot : st'.root = some r := by rw [hst]
  rw [buildPipelines, hroot] at hbp
  rw [Prod.mk.injEq] at hbp
  obtain ⟨_, h2⟩ := hbp
  rw [Except.ok.injEq] at h2
  subst h2
  obtain ⟨c0, cs0, rfl⟩ := pruned_root_shape hpr
  rw [buildPipelinesRec_root] at hp
  rcases List.mem_flatMap.mp hp with ⟨c, hc, hpc⟩
  have hmem : ROOT_TASK :: p ∈ pathsOf (Node.mk ROOT_TASK (.cons c0 cs0)) := by
    rw [pathsOf]
    refine List.mem_map.mpr ⟨p, ?_, rfl⟩
    rw [pathsOfList_eq]
    exact List.mem_flatMap.mpr ⟨c, hc, hpc⟩
  rcases pruneNode_paths_le _ _ hpr _ hmem with ⟨pth, hpth, hle⟩
  have hlen := pathsOf_buildTreeFuel_length tcs (md + 1) [] ROOT_TASK pth hpth
  simp only [List.length_cons] at hle
  omega

/-- Witness for `claim_C6` at the concrete repository `[demoAS, demoB]`
with `max_depth = 0`. -/
theorem claim_C6_witness :
    buildTreeDefault 5 (freshRepository [demoAS, demoB]) =
      buildTree (freshRepository [demoAS, demoB]) 5 ∧
    buildTreeFuel [demoAS, demoB] 0 [] demoAS = Node.mk demoAS .nil ∧
    [demoAS].length ≤ 0 + 1 := by
  refine ⟨claim_C6.1 5 _, claim_C6.2.1 [demoAS, demoB] [] demoAS, ?_⟩
  exact claim_C6.2.2 [demoAS, demoB] 0
    { task_classes := [demoAS, demoB],
      root := some (Node.mk ROOT_TASK (.cons (Node.mk demoAS .nil) .nil)),
      leaves := [Node.mk demoAS .nil], pipelines := [] }
    { task_classes := [demoAS, demoB],
      root := some (Node.mk ROOT_TASK (.cons (Node.mk demoAS .nil) .nil)),
      leaves := [Node.mk demoAS .nil], pipelines := [[demoAS]] }
    (Node.mk ROOT_TASK (.cons (Node.mk demoAS .nil) .nil))
    [[demoAS]] rfl rfl [demoAS] (by decide)

/-- C6, counterexample to the claim as stated: the default `max_depth` is
the host recursion limit, so the same repository yields different pipeline
sets under two different host recursion limits (0 versus 5) when the caller
omits `max_depth` — refuting "an explicit, finite, caller-supplied bound
rather than defaulting to a host call-stack limit". -/
theorem claim_C6_counterexample :
    (buildPipelines (buildTreeDefault 0 (freshRepository [demoAS, demoB])).1).2 ≠
    (buildPipelines (buildTreeDefault 5 (freshRepository [demoAS, demoB])).1).2 := by
  decide

/-- C8: adding a task whose `input_types` has empty intersection with the
current last task's `output_types` to a non-empty pipeline fails with the
type-mismatch `ValueError` naming the offending task (`typeMismatchMsg
t.name` …) and leaves the task list unchanged; adding a type-compatible
task, or adding any task to an empty pipeline, appends it
(`Pipeline._add_task`, lines 131-137). -/
theorem claim_C8 (tasks : List TaskDef) (t : TaskDef) :
    (tasks ≠ [] → typesIntersect t.input_types (pipelineOutputTypes tasks) = false →
      addTaskState tasks t = (tasks, some (typeMismatchMsg t.name (lastTaskName tasks)))) ∧
    (typesIntersect t.input_types (pipelineOutputTypes tasks) = true →
      addTaskState tasks t = (tasks ++ [t], none)) ∧
    addTaskState [] t = ([t], none) := by
  refine ⟨?_, ?_, ?_⟩
  · intro hne hfalse
    have hemp : tasks.isEmpty = false := by
      cases tasks with
      | nil => exact absurd rfl hne
      | cons a l => rfl
    rw [addTaskState, hfalse, hemp]
    rfl
  · intro htrue
    rw [addTaskState, htrue]
    rfl
  · rw [addTaskState, Bool.or_comm]
    rfl

/-- Witness for `claim_C8`: `demoA` (outputs `["x"]`) rejects a second
`demoA` (inputs `["source"]`) with the mismatch message, accepts `demoB`
(inputs `["x"]`), and an empty pipeline accepts anything. -/
theorem claim_C8_witness :
    addTaskState [demoA] demoA =
      ([demoA], some (typeMismatchMsg demoA.name (lastTaskName [demoA]))) ∧
    addTaskState [demoA] demoB = ([demoA] ++ [demoB], none) ∧
    addTaskState [] demoA = ([demoA], none) :=
  ⟨(claim_C8 [demoA] demoA).1 (by decide) (by decide),
   (claim_C8 [demoA] demoB).2.1 (by decide),
   (claim_C8 [] demoA).2.2⟩

/-- C9 is a code bug: `build_tree` resets `self.root` (line 162) and
`build_pipelines` resets `self.pipelines` (line 232), but `build_tree`
never resets `self.leaves`, so the leaves of an earlier call survive the
new pruning pass and accumulate.  On the one-task repository `[demoS]` a
first `build_tree` leaves one leaf, a second identical call leaves two
(the stale leaf plus the fresh one), while the returned root and the
pipelines are unaffected — against the documented wholesale rebuild. -/
theorem claim_C9 :
    (buildTree (freshRepository [demoS]) 3).1.leaves.length = 1 ∧
    (buildTree (buildTree (freshRepository [demoS]) 3).1 3).1.leaves.length = 2 ∧
    (buildTree (buildTree (freshRepository [demoS]) 3).1 3).2 =
      (buildTree (freshRepository [demoS]) 3).2 ∧
    (buildPipelines (buildTree (buildTree (freshRepository [demoS]) 3).1 3).1).2 =
      (buildPipelines (buildTree (freshRepository [demoS]) 3).1).2 :=
  ⟨rfl, rfl, rfl, rfl⟩

/-- C4: no task definition appears twice within a single pipeline returned
by `build_pipelines`.  The per-path `visited_nodes` set of
`_build_tree_recursive` (line 188 passes `visited_nodes | {task_class}`
down each child) excludes every class already on the current root-to-leaf
path, pruning preserves this, and each pipeline is exactly such a path
minus the sentinel root. -/
theorem claim_C4 (tcs : List TaskDef) (md : Nat) (st' st'' : RepoState) (r : Node)
    (ps : List (List TaskDef))
    (hbt : buildTree (freshRepository tcs) md = (st', .ok r))
    (hbp : buildPipelines st' = (st'', .ok ps)) :
    ∀ p ∈ ps, p.Nodup := by
  obtain ⟨hpr, hst⟩ := buildTree_fresh_ok hbt
  have hroot : st'.root = some r := by rw [hst]
  rw [buildPipelines, hroot, Prod.mk.injEq] at hbp
  obtain ⟨_, h2⟩ := hbp
  rw [Except.ok.injEq] at h2
  subst h2
  intro p hp
  obtain ⟨c0, cs0, rfl⟩ := pruned_root_shape hpr
  rw [buildPipelinesRec_root] at hp
  rcases List.mem_flatMap.mp hp with ⟨c, hc, hpc⟩
  have hinv := pruneNode_visitedInv _ [] _ hpr
    (buildTreeFuel_visitedInv tcs (md + 1) [] ROOT_TASK)
  rcases hinv with ⟨_, _, _, _, hrec⟩
  have hpaths := visitedInv_paths c (c.task :: []) (hrec c hc) p hpc
  obtain ⟨hnd, havoid⟩ := hpaths
  rcases mem_pathsOf_cons hpc with ⟨q, hq⟩
  rw [hq] at hnd havoid ⊢
  simp only [List.tail_cons] at hnd havoid
  rw [List.nodup_cons]
  refine ⟨?_, hnd⟩
  intro hin
  exact havoid c.task hin (by simp)

/-- Witness for `claim_C4` on `[demoA, demoB]` with `max_depth = 5`: the
single returned pipeline `[demoA, demoB]` has no duplicate. -/
theorem claim_C4_witness : List.Nodup [demoA, demoB] :=
  claim_C4 [demoA, demoB] 5
    { task_classes := [demoA, demoB],
      root := some (Node.mk ROOT_TASK
        (.cons (Node.mk demoA (.cons (Node.mk demoB .nil) .nil)) .nil)),
      leaves := [Node.mk demoB .nil], pipelines := [] }
    { task_classes := [demoA, demoB],
      root := some (Node.mk ROOT_TASK
        (.cons (Node.mk demoA (.cons (Node.mk demoB .nil) .nil)) .nil)),
      leaves := [Node.mk demoB .nil], pipelines := [[demoA, demoB]] }
    (Node.mk ROOT_TASK (.cons (Node.mk demoA (.cons (Node.mk demoB .nil) .nil)) .nil))
    [[demoA, demoB]] rfl rfl [demoA, demoB] (by decide)

/-- C1 (amended): after a successful `build_tree` on a *fresh* repository
(the first `build_tree` call), every
pipeline returned by `build_pipelines` is non-empty, excludes the sentinel
root task, starts with a task declaring `"source"` among its input types
(the root's only output, enforced by the edge filter) and ends with a task
declaring `"sink"` among its output types (enforced by pruning); and for
any repository containing a type-compatible chain of distinct tasks from a
source-declaring task to a sink-declaring one that fits in `max_depth`
(the spec's "reachable" sink task), `build_tree` succeeds and
`build_pipelines` returns at least one pipeline.  The fresh-repository
restriction is forced by the stale-leaves bug (see `claim_C9` and
`claim_C1_counterexample`): on a reused repository `build_tree` can succeed
through a stale leaf with a childless sentinel root, and `build_pipelines`
then returns the degenerate pipeline `[Root]` violating all three shape
properties. -/
theorem claim_C1 (tcs : List TaskDef) (md : Nat) :
    (∀ (st' st'' : RepoState) (r : Node) (ps : List (List TaskDef)),
      buildTree (freshRepository tcs) md = (st', .ok r) →
      buildPipelines st' = (st'', .ok ps) →
      ∀ p ∈ ps, p ≠ [] ∧ ROOT_TASK ∉ p ∧
        (∃ f, p.head? = some f ∧ SOURCE_TYPE ∈ f.input_types) ∧
        (∃ l, p.getLast? = some l ∧ SINK_TYPE ∈ l.output_types)) ∧
    (∀ chain : List TaskDef,
      (∀ x ∈ chain, x ∈ tcs) → chain.Nodup →
      List.Chain' (fun a b => typesIntersect a.output_types b.input_types = true) chain →
      (∃ f, chain.head? = some f ∧ SOURCE_TYPE ∈ f.input_types) →
      (∃ lt, chain.getLast? = some lt ∧ SINK_TYPE ∈ lt.output_types) →
      chain.length ≤ md + 1 →
      ∃ (st' st'' : RepoState) (r : Node) (ps : List (List TaskDef)),
        buildTree (freshRepository tcs) md = (st', .ok r) ∧
        buildPipelines st' = (st'', .ok ps) ∧ ps ≠ []) := by
  constructor
  · intro st' st'' r ps hbt hbp p hp
    obtain ⟨hpr, hst⟩ := buildTree_fresh_ok hbt
    have hroot : st'.root = some r := by rw [hst]
    rw [buildPipelines, hroot, Prod.mk.injEq] at hbp
    obtain ⟨_, h2⟩ := hbp
    rw [Except.ok.injEq] at h2
    subst h2
    obtain ⟨c0, cs0, rfl⟩ := pruned_root_shape hpr
    rw [buildPipelinesRec_root] at hp
    rcases List.mem_flatMap.mp hp with ⟨c, hc, hpc⟩
    have hec := pruneNode_edgesCompat _ _ hpr
      (buildTreeFuel_edgesCompat tcs (md + 1) [] ROOT_TASK)
    rcases hec with ⟨_, _, hmem, hrec⟩
    have hsource : SOURCE_TYPE ∈ c.task.input_types := by
      rcases typesIntersect_iff.mp (hmem c hc) with ⟨x, hx1, hx2⟩
      have hxs : x = SOURCE_TYPE := by
        simpa [ROOT_TASK] using hx1
      subst hxs
      exact hx2
    rcases mem_pathsOf_cons hpc with ⟨q, hq⟩
    refine ⟨by rw [hq]; simp, ?_, ?_, ?_⟩
    · intro hroot_in
      have hinputs := edgesCompat_paths_inputs c (hrec c hc)
        (by intro hcon; rw [hcon] at hsource; cases hsource) p hpc ROOT_TASK hroot_in
      exact hinputs rfl
    · exact ⟨c.task, by rw [hq]; rfl, hsource⟩
    · rcases mem_pathsOf_getLast c p hpc with ⟨l, hl, hlast⟩
      refine ⟨l.task, hlast, ?_⟩
      refine pruneNode_leaves_sink _ _ hpr l ?_
      rw [leavesOf, leavesOfList_eq]
      exact List.mem_flatMap.mpr ⟨c, hc, hl⟩
  · intro chain hin hnd hchain hhead hlast hlen
    rcases hhead with ⟨f, hf, hfsource⟩
    rcases hlast with ⟨lt, hlt, hltsink⟩
    cases chain with
    | nil => cases hf
    | cons c1 rest =>
      simp only [List.head?_cons, Option.some_inj] at hf
      subst hf
      have hchainR : List.Chain
          (fun a b => typesIntersect a.output_types b.input_types = true)
          ROOT_TASK (c1 :: rest) := by
        rw [List.chain_cons]
        exact ⟨typesIntersect_iff.mpr ⟨SOURCE_TYPE, by simp [ROOT_TASK], hfsource⟩, hchain⟩
      have hcit := buildTreeFuel_chain tcs (c1 :: rest) (md + 1) [] ROOT_TASK
        hin (by intro x hx; simp) hnd hchainR hlen
      have hsd := chainInTree_hasSinkDesc hcit lt hlt hltsink
      rcases Option.isSome_iff_exists.mp (hasSinkDesc_prune hsd) with ⟨r, hpr⟩
      refine ⟨{ task_classes := tcs, root := some r, leaves := leavesOf r,
                pipelines := [] },
              { task_classes := tcs, root := some r, leaves := leavesOf r,
                pipelines := buildPipelinesRec r [] },
              r, buildPipelinesRec r [], buildTree_fresh_of_prune hpr, rfl, ?_⟩
      obtain ⟨c0, cs0, rfl⟩ := pruned_root_shape hpr
      rw [buildPipelinesRec_root]
      intro hcon
      rw [NodeList.toList, List.flatMap_cons] at hcon
      rcases List.append_eq_nil.mp hcon with ⟨h1, _⟩
      exact pathsOf_ne_nil c0 h1

/-- Witness for `claim_C1` on `[demoA, demoB]` with `max_depth = 5`,
shape part instantiated at the returned pipeline `[demoA, demoB]` and
existence part at the chain `[demoA, demoB]`. -/
theorem claim_C1_witness :
    ([demoA, demoB] ≠ [] ∧ ROOT_TASK ∉ [demoA, demoB] ∧
      (∃ f, List.head? [demoA, demoB] = some f ∧ SOURCE_TYPE ∈ f.input_types) ∧
      (∃ l, List.getLast? [demoA, demoB] = some l ∧ SINK_TYPE ∈ l.output_types)) ∧
    (∃ (st' st'' : RepoState) (r : Node) (ps : List (List TaskDef)),
      buildTree (freshRepository [demoA, demoB]) 5 = (st', .ok r) ∧
      buildPipelines st' = (st'', .ok ps) ∧ ps ≠ []) :=
  ⟨(claim_C1 [demoA, demoB] 5).1
    { task_classes := [demoA, demoB],
      root := some (Node.mk ROOT_TASK
        (.cons (Node.mk demoA (.cons (Node.mk demoB .nil) .nil)) .nil)),
      leaves := [Node.mk demoB .nil], pipelines := [] }
    { task_classes := [demoA, demoB],
      root := some (Node.mk ROOT_TASK
        (.cons (Node.mk demoA (.cons (Node.mk demoB .nil) .nil)) .nil)),
      leaves := [Node.mk demoB .nil], pipelines := [[demoA, demoB]] }
    (Node.mk ROOT_TASK (.cons (Node.mk demoA (.cons (Node.mk demoB .nil) .nil)) .nil))
    [[demoA, demoB]] rfl rfl [demoA, demoB] (by decide),
   (claim_C1 [demoA, demoB] 5).2 [demoA, demoB] (by decide) (by decide)
    (by refine List.chain'_cons.mpr ⟨by decide, ?_⟩; simp)
    ⟨demoA, rfl, by decide⟩ ⟨demoB, rfl, by decide⟩ (by decide)⟩

theorem occurrences_nil (s : String) : occurrences s [] = 0 := rfl

theorem occurrences_cons_ne {s x : String} (l : List String) (h : x ≠ s) :
    occurrences s (x :: l) = occurrences s l := by
  simp [occurrences, List.filter_cons, h]

theorem occurrences_cons_eq {s x : String} (l : List String) (h : x = s) :
    occurrences s (x :: l) = occurrences s l + 1 := by
  simp [occurrences, List.filter_cons, h]

theorem occurrences_append (s : String) (l₁ l₂ : List String) :
    occurrences s (l₁ ++ l₂) = occurrences s l₁ + occurrences s l₂ := by
  simp [occurrences, List.filter_append]

theorem occurrences_eq_zero {s : String} {l : List String} (h : s ∉ l) :
    occurrences s l = 0 := by
  rw [occurrences, List.length_eq_zero, List.filter_eq_nil_iff]
  intro x hx
  simp only [decide_eq_true_eq]
  intro he
  subst he
  exact h hx

theorem occurrences_pos {s : String} {l : List String} (h : s ∈ l) :
    0 < occurrences s l := by
  rw [occurrences, List.length_pos, ne_eq, List.filter_eq_nil_iff]
  intro hcon
  exact hcon s h (by simp)

theorem mem_cacheKeys_iff {V : Type} : ∀ (c : Cache V) (s : String),
    s ∈ cacheKeys c ↔ ∃ e, cacheLookup c s = some e
  | [], s => by simp [cacheKeys, cacheLookup]
  | (k, e) :: rest, s => by
    rw [cacheLookup]
    by_cases hk : k = s
    · subst hk
      simp [cacheKeys]
    · simp only [if_neg hk, ← mem_cacheKeys_iff rest s]
      simp [cacheKeys, Ne.symm hk]

theorem cacheLookup_none_iff {V : Type} (c : Cache V) (s : String) :
    cacheLookup c s = none ↔ s ∉ cacheKeys c := by
  rw [mem_cacheKeys_iff]
  cases h : cacheLookup c s <;> simp [h]

theorem runGo_keys_mono {C V : Type} (cfg : Option C) :
    ∀ (ts : List (ExecTask C V)) (sig : String) (inp : Option V) (cache : Cache V)
      (rt : Nat) (s : String), s ∈ cacheKeys cache →
      s ∈ cacheKeys (runPipelineGo cfg ts sig inp cache rt).2.1 := by
  intro ts
  induction ts with
  | nil => intro sig inp cache rt s hs; exact hs
  | cons t ts ih =>
    intro sig inp cache rt s hs
    rw [runPipelineGo]
    split
    · exact ih _ _ _ _ s hs
    · split
      · exact hs
      · exact ih _ _ _ _ s (by simp [cacheKeys]; right; simpa [cacheKeys] using hs)

theorem runGo_trace_of_cached {C V : Type} (cfg : Option C) :
    ∀ (ts : List (ExecTask C V)) (sig : String) (inp : Option V) (cache : Cache V)
      (rt : Nat) (s : String), s ∈ cacheKeys cache →
      occurrences s (runPipelineGo cfg ts sig inp cache rt).2.2 = 0 := by
  intro ts
  induction ts with
  | nil => intro sig inp cache rt s _; rfl
  | cons t ts ih =>
    intro sig inp cache rt s hs
    rw [runPipelineGo]
    split
    · exact ih _ _ _ _ s hs
    · rename_i hnone
      have hne : sig ++ ">" ++ t.name ≠ s := by
        intro he
        rw [he, cacheLookup_none_iff] at hnone
        exact hnone hs
      split
      · exact occurrences_cons_ne [] hne
      · show occurrences s (_ :: _) = 0
        rw [occurrences_cons_ne _ hne]
        exact ih _ _ _ _ s (by simp [cacheKeys]; right; simpa [cacheKeys] using hs)

theorem runGo_keys_from {C V : Type} (cfg : Option C) :
    ∀ (ts : List (ExecTask C V)) (sig : String) (inp : Option V) (cache : Cache V)
      (rt : Nat) (s : String),
      s ∈ cacheKeys (runPipelineGo cfg ts sig inp cache rt).2.1 →
      s ∈ cacheKeys cache ∨ s ∈ (runPipelineGo cfg ts sig inp cache rt).2.2 := by
  intro ts
  induction ts with
  | nil => intro sig inp cache rt s hs; exact Or.inl hs
  | cons t ts ih =>
    intro sig inp cache rt s hs
    rw [runPipelineGo] at hs ⊢
    revert hs
    split
    · intro hs
      exact ih _ _ _ _ s hs
    · split
      · intro hs
        exact Or.inl hs
      · intro hs
        rcases ih _ _ _ _ s hs with hkey | htr
        · rcases (show s = sig ++ ">" ++ t.name ∨ s ∈ cacheKeys cache by
            simpa [cacheKeys] using hkey) with he | hc
          · exact Or.inr (by simp [he])
          · exact Or.inl hc
        · exact Or.inr (by simp [htr])

theorem sigFor_nil (h : String) : sigFor h [] = h := rfl

theorem sigFor_cons (h n : String) (ns : List String) :
    sigFor h (n :: ns) = sigFor (h ++ ">" ++ n) ns := rfl

theorem sigsOf_cons {C V : Type} (sig : String) (t : ExecTask C V)
    (ts : List (ExecTask C V)) :
    sigsOf sig (t :: ts) =
      (sig ++ ">" ++ t.name) :: sigsOf (sig ++ ">" ++ t.name) ts := rfl

theorem mem_sigsOf {C V : Type} :
    ∀ (ts : List (ExecTask C V)) (sig s : String), s ∈ sigsOf sig ts →
      ∃ j, j < ts.length ∧ s = sigFor sig ((ts.map ExecTask.name).take (j + 1)) := by
  intro ts
  induction ts with
  | nil => intro sig s hs; cases hs
  | cons t ts ih =>
    intro sig s hs
    rw [sigsOf_cons] at hs
    rcases List.mem_cons.mp hs with rfl | hs'
    · exact ⟨0, by simp, by simp [sigFor_cons, sigFor_nil]⟩
    · rcases ih _ s hs' with ⟨j, hj, he⟩
      exact ⟨j + 1, by simpa using Nat.succ_lt_succ hj,
        by simpa [sigFor_cons] using he⟩

theorem sigFor_mem_sigsOf {C V : Type} :
    ∀ (ts : List (ExecTask C V)) (sig : String) (j : Nat), j < ts.length →
      sigFor sig ((ts.map ExecTask.name).take (j + 1)) ∈ sigsOf sig ts := by
  intro ts
  induction ts with
  | nil => intro sig j hj; simp at hj
  | cons t ts ih =>
    intro sig j hj
    rw [sigsOf_cons]
    cases j with
    | zero => simp [sigFor_cons, sigFor_nil]
    | succ j =>
      right
      simpa [sigFor_cons] using ih (sig ++ ">" ++ t.name) j (by simpa using hj)

/-- Every prefix signature whose tasks never raise is cached after
`_run_pipeline` processes the extended task list: each step is a cache hit
(already present, and the cache only grows) or an executed-and-stored
step. -/
theorem runGo_sigs_cached {C V : Type} (cfg : Option C) :
    ∀ (pre rest : List (ExecTask C V)) (sig : String) (inp : Option V)
      (cache : Cache V) (rt : Nat),
      (∀ t ∈ pre, ∀ i, ∃ v, t.run cfg i = Except.ok v) →
      ∀ s ∈ sigsOf sig pre,
        s ∈ cacheKeys (runPipelineGo cfg (pre ++ rest) sig inp cache rt).2.1 := by
  intro pre
  induction pre with
  | nil => intro rest sig inp cache rt _ s hs; cases hs
  | cons t pre ih =>
    intro rest sig inp cache rt htotal s hs
    rw [sigsOf_cons] at hs
    rw [List.cons_append, runPipelineGo]
    split
    · rename_i e hsome
      rcases List.mem_cons.mp hs with rfl | hs'
      · refine runGo_keys_mono cfg _ _ _ _ _ _ ?_
        exact (mem_cacheKeys_iff _ _).mpr ⟨e, hsome⟩
      · exact ih rest _ _ _ _ (fun t' ht' => htotal t' (by simp [ht'])) s hs'
    · split
      · rename_i msg herr
        rcases htotal t (by simp) inp with ⟨v, hv⟩
        rw [hv] at herr
        cases herr
      · rename_i v hok
        rcases List.mem_cons.mp hs with rfl | hs'
        · refine runGo_keys_mono cfg _ _ _ _ _ _ ?_
          simp [cacheKeys]
        · exact ih rest _ _ _ _ (fun t' ht' => htotal t' (by simp [ht'])) s hs'

theorem sigGuard_cons {C V : Type} {cfg : Option C} {s sig : String}
    {t : ExecTask C V} {ts : List (ExecTask C V)}
    (h : SigGuard cfg s sig (t :: ts)) :
    SigGuard cfg s (sig ++ ">" ++ t.name) ts := by
  intro done t' rest' hsplit hsig inp
  refine h (t :: done) t' rest' (by rw [hsplit]; rfl) ?_ inp
  rw [← hsig]
  rfl

theorem sigGuard_head {C V : Type} {cfg : Option C} {s sig : String}
    {t : ExecTask C V} {ts : List (ExecTask C V)}
    (h : SigGuard cfg s sig (t :: ts)) (hs : sig ++ ">" ++ t.name = s) :
    ∀ inp, ∃ v, t.run cfg inp = Except.ok v :=
  h [] t ts rfl hs

/-- Under the signature guard, one `_run_pipeline` pass executes a task at
signature `s` at most once, and if it does, `s` is cached afterwards. -/
theorem runGo_guard_count {C V : Type} (cfg : Option C) (s : String) :
    ∀ (ts : List (ExecTask C V)) (sig : String) (inp : Option V) (cache : Cache V)
      (rt : Nat), SigGuard cfg s sig ts →
      occurrences s (runPipelineGo cfg ts sig inp cache rt).2.2 ≤ 1 ∧
      (s ∈ (runPipelineGo cfg ts sig inp cache rt).2.2 →
        s ∈ cacheKeys (runPipelineGo cfg ts sig inp cache rt).2.1) := by
  intro ts
  induction ts with
  | nil =>
    intro sig inp cache rt _
    exact ⟨by simp [runPipelineGo, occurrences_nil], by intro h; cases h⟩
  | cons t ts ih =>
    intro sig inp cache rt hguard
    rw [runPipelineGo]
    split
    · exact ih _ _ _ _ (sigGuard_cons hguard)
    · rename_i hnone
      split
      · rename_i msg herr
        have hne : sig ++ ">" ++ t.name ≠ s := by
          intro he
          rcases sigGuard_head hguard he inp with ⟨v, hv⟩
          rw [hv] at herr
          cases herr
        constructor
        · rw [occurrences_cons_ne [] hne]
          exact Nat.zero_le 1
        · intro hmem
          rcases List.mem_singleton.mp hmem with rfl
          exact absurd rfl hne
      · rename_i v hok
        by_cases he : sig ++ ">" ++ t.name = s
        · constructor
          · show occurrences s (_ :: _) ≤ 1
            rw [occurrences_cons_eq _ he,
              runGo_trace_of_cached cfg ts _ _ _ _ s (by simp [cacheKeys, he])]
          · intro _
            exact runGo_keys_mono cfg _ _ _ _ _ s (by simp [cacheKeys, he])
        · have hrec := ih (sig ++ ">" ++ t.name) (some v)
            ((sig ++ ">" ++ t.name, ⟨v, t.elapsed⟩) :: cache) (rt + t.elapsed)
            (sigGuard_cons hguard)
          constructor
          · show occurrences s (_ :: _) ≤ 1
            rw [occurrences_cons_ne _ he]
            exact hrec.1
          · intro hmem
            rcases List.mem_cons.mp hmem with hx | hmem'
            · exact absurd hx.symm he
            · exact hrec.2 hmem'

theorem execGo_length {C V : Type} (sh : Option V → Option C → String)
    (cfg : Option C) (inp : Option V) :
    ∀ (ps : List (ExecPipeline C V)) (cache : Cache V),
      (execRunGo sh cfg inp ps cache).1.length = ps.length := by
  intro ps
  induction ps with
  | nil => intro cache; rfl
  | cons p ps ih =>
    intro cache
    rw [execRunGo]
    simpa using ih _

theorem execGo_keys_mono {C V : Type} (sh : Option V → Option C → String)
    (cfg : Option C) (inp : Option V) :
    ∀ (ps : List (ExecPipeline C V)) (cache : Cache V) (s : String),
      s ∈ cacheKeys cache → s ∈ cacheKeys (execRunGo sh cfg inp ps cache).2.1 := by
  intro ps
  induction ps with
  | nil => intro cache s hs; exact hs
  | cons p ps ih =>
    intro cache s hs
    rw [execRunGo]
    exact ih _ s (runGo_keys_mono cfg _ _ _ _ _ s hs)

theorem execGo_trace_of_cached {C V : Type} (sh : Option V → Option C → String)
    (cfg : Option C) (inp : Option V) :
    ∀ (ps : List (ExecPipeline C V)) (cache : Cache V) (s : String),
      s ∈ cacheKeys cache →
      occurrences s (execRunGo sh cfg inp ps cache).2.2 = 0 := by
  intro ps
  induction ps with
  | nil => intro cache s _; rfl
  | cons p ps ih =>
    intro cache s hs
    rw [execRunGo]
    show occurrences s (_ ++ _) = 0
    rw [occurrences_append, runGo_trace_of_cached cfg _ _ _ _ _ s hs,
      ih _ s (runGo_keys_mono cfg _ _ _ _ _ s hs)]

theorem execGo_keys_from {C V : Type} (sh : Option V → Option C → String)
    (cfg : Option C) (inp : Option V) :
    ∀ (ps : List (ExecPipeline C V)) (cache : Cache V) (s : String),
      s ∈ cacheKeys (execRunGo sh cfg inp ps cache).2.1 →
      s ∈ cacheKeys cache ∨ s ∈ (execRunGo sh cfg inp ps cache).2.2 := by
  intro ps
  induction ps with
  | nil => intro cache s hs; exact Or.inl hs
  | cons p ps ih =>
    intro cache s hs
    rw [execRunGo] at hs ⊢
    rcases ih _ s hs with hkey | htr
    · rcases runGo_keys_from cfg _ _ _ _ _ s hkey with hc | htr1
      · exact Or.inl hc
      · exact Or.inr (by simp [htr1])
    · exact Or.inr (by simp [htr])

theorem execGo_guard_count {C V : Type} (sh : Option V → Option C → String)
    (cfg : Option C) (inp : Option V) (s : String) :
    ∀ (ps : List (ExecPipeline C V)) (cache : Cache V),
      (∀ q ∈ ps, SigGuard cfg s (sh inp cfg) q.tasks) →
      s ∉ cacheKeys cache →
      occurrences s (execRunGo sh cfg inp ps cache).2.2 ≤ 1 := by
  intro ps
  induction ps with
  | nil => intro cache _ _; exact Nat.zero_le 1
  | cons p ps ih =>
    intro cache hguard hnk
    rw [execRunGo]
    show occurrences s (_ ++ _) ≤ 1
    rw [occurrences_append]
    have hg1 := runGo_guard_count cfg s p.tasks (sh inp cfg) inp cache 0
      (hguard p (by simp))
    by_cases hmem : s ∈ (runPipelineGo cfg p.tasks (sh inp cfg) inp cache 0).2.2
    · have hc := hg1.2 hmem
      rw [execGo_trace_of_cached sh cfg inp ps _ s hc]
      simpa using hg1.1
    · rw [occurrences_eq_zero hmem]
      have hnk' : s ∉ cacheKeys (runPipelineGo cfg p.tasks (sh inp cfg) inp cache 0).2.1 := by
        intro hcon
        rcases runGo_keys_from cfg _ _ _ _ _ s hcon with hc | htr
        · exact hnk hc
        · exact hmem htr
      simpa using ih _ (fun q hq => hguard q (by simp [hq])) hnk'

theorem execGo_append {C V : Type} (sh : Option V → Option C → String)
    (cfg : Option C) (inp : Option V) :
    ∀ (l₁ l₂ : List (ExecPipeline C V)) (cache : Cache V),
      execRunGo sh cfg inp (l₁ ++ l₂) cache =
        ((execRunGo sh cfg inp l₁ cache).1 ++
          (execRunGo sh cfg inp l₂ (execRunGo sh cfg inp l₁ cache).2.1).1,
         (execRunGo sh cfg inp l₂ (execRunGo sh cfg inp l₁ cache).2.1).2.1,
         (execRunGo sh cfg inp l₁ cache).2.2 ++
          (execRunGo sh cfg inp l₂ (execRunGo sh cfg inp l₁ cache).2.1).2.2) := by
  intro l₁
  induction l₁ with
  | nil => intro l₂ cache; simp [execRunGo]
  | cons p l₁ ih =>
    intro l₂ cache
    rw [List.cons_append, execRunGo, ih]
    rw [execRunGo]
    simp [List.append_assoc]


theorem execGo_getElem {C V : Type} (sh : Option V → Option C → String)
    (cfg : Option C) (inp : Option V) :
    ∀ (ps : List (ExecPipeline C V)) (k : Nat) (cache : Cache V)
      (p : ExecPipeline C V), ps[k]? = some p →
      (execRunGo sh cfg inp ps cache).1[k]? =
        some (p.id, mkResult
          (runPipelineGo cfg p.tasks (sh inp cfg) inp
            (execRunGo sh cfg inp (ps.take k) cache).2.1 0).1
          (p.tasks.map ExecTask.name)) := by
  intro ps
  induction ps with
  | nil => intro k cache p hp; cases hp
  | cons q ps ih =>
    intro k cache p hp
    cases k with
    | zero =>
      rw [List.getElem?_cons_zero, Option.some_inj] at hp
      subst hp
      simp only [List.take_zero, execRunGo, List.getElem?_cons_zero]
    | succ k =>
      rw [List.getElem?_cons_succ] at hp
      simp only [List.take_succ_cons, execRunGo, List.getElem?_cons_succ]
      exact ih k _ p hp

/-- C3: one `executor.run` call gives every pipeline of the batch exactly
one result record, in order (first conjunct), and the `k`-th record is the
`k`-th pipeline's id paired with `mkResult` of its own `_run_pipeline`
outcome over the cache state reached after the first `k` pipelines (second
conjunct).  `mkResult` of a raised exception is
`{output: none, runtime: none, tasks}` and of a normal return is the
output with its total runtime (third and fourth conjuncts) — so a failing
pipeline is recorded with both fields `none` plus its task identity list
while every other pipeline still receives its normal record, and the batch
is never aborted. -/
theorem claim_C3 {C V : Type} (sh : Option V → Option C → String)
    (ps : List (ExecPipeline C V)) (cache : Cache V) (input : Option V)
    (cfg : Option C) :
    (execRun sh ps cache input cfg).1.length = ps.length ∧
    (∀ (k : Nat) (p : ExecPipeline C V), ps[k]? = some p →
      (execRun sh ps cache input cfg).1[k]? =
        some (p.id, mkResult (runPipeline sh cfg input p
          (execRun sh (ps.take k) cache input cfg).2.1).1
          (p.tasks.map ExecTask.name))) ∧
    (∀ (e : String) (names : List String),
      mkResult (Except.error e : Except String (Option V × Nat)) names =
        PipelineResult.mk none none names) ∧
    (∀ (out : Option V) (rt : Nat) (names : List String),
      mkResult (Except.ok (out, rt) : Except String (Option V × Nat)) names =
        PipelineResult.mk out (some rt) names) :=
  ⟨execGo_length sh cfg input ps cache,
   fun k p hp => execGo_getElem sh cfg input ps k cache p hp,
   fun _ _ => rfl, fun _ _ _ => rfl⟩

/-- Witness for `claim_C3`: a batch whose first pipeline raises (`execBoom`)
and whose second succeeds; both get records. -/
theorem claim_C3_witness :
    (execRun demoHash [execPfail, execPok] [] none none).1.length =
      [execPfail, execPok].length ∧
    (execRun demoHash [execPfail, execPok] [] none none).1[0]? =
      some (execPfail.id, mkResult (runPipeline demoHash none none execPfail
        (execRun demoHash ([execPfail, execPok].take 0) [] none none).2.1).1
        (execPfail.tasks.map ExecTask.name)) :=
  ⟨(claim_C3 demoHash [execPfail, execPok] [] none none).1,
   (claim_C3 demoHash [execPfail, execPok] [] none none).2.1 0 execPfail rfl⟩

theorem sigFor_length_le : ∀ (ns : List String) (sig : String),
    sig.length ≤ (sigFor sig ns).length
  | [], _ => Nat.le_refl _
  | n :: ns, sig => by
    rw [sigFor_cons]
    refine Nat.le_trans ?_ (sigFor_length_le ns (sig ++ ">" ++ n))
    rw [String.length_append, String.length_append]
    omega

theorem sigsOf_length_lt {C V : Type} : ∀ (ts : List (ExecTask C V)) (sig s : String),
    s ∈ sigsOf sig ts → sig.length < s.length := by
  intro ts
  induction ts with
  | nil => intro sig s hs; cases hs
  | cons t ts ih =>
    intro sig s hs
    rw [sigsOf_cons] at hs
    rcases List.mem_cons.mp hs with rfl | hs'
    · rw [String.length_append, String.length_append]
      have : (">").length = 1 := rfl
      omega
    · refine Nat.lt_trans ?_ (ih _ s hs')
      rw [String.length_append, String.length_append]
      have : (">").length = 1 := rfl
      omega

theorem sigsOf_length_le_sigFor {C V : Type} :
    ∀ (ts : List (ExecTask C V)) (sig s : String),
      s ∈ sigsOf sig ts → s.length ≤ (sigFor sig (ts.map ExecTask.name)).length := by
  intro ts
  induction ts with
  | nil => intro sig s hs; cases hs
  | cons t ts ih =>
    intro sig s hs
    rw [sigsOf_cons] at hs
    rw [List.map_cons, sigFor_cons]
    rcases List.mem_cons.mp hs with rfl | hs'
    · exact sigFor_length_le _ _
    · exact ih _ s hs'

/-- Processing `pre ++ tail` from a cache containing none of `pre`'s
signatures: when every task of `pre` runs without raising, the pass
executes and stores each `pre` signature in order and then continues with
`tail` from the extended signature and cache. -/
theorem runGo_clean {C V : Type} (cfg : Option C) :
    ∀ (pre tail : List (ExecTask C V)) (sig : String) (inp : Option V)
      (cache : Cache V) (rt : Nat),
      (∀ t ∈ pre, ∀ i, ∃ v, t.run cfg i = Except.ok v) →
      (∀ s ∈ sigsOf sig pre, s ∉ cacheKeys cache) →
      ∃ (inp2 : Option V) (rt2 : Nat) (cache2 : Cache V),
        (∀ s, s ∈ cacheKeys cache2 ↔ (s ∈ sigsOf sig pre ∨ s ∈ cacheKeys cache)) ∧
        runPipelineGo cfg (pre ++ tail) sig inp cache rt =
          ((runPipelineGo cfg tail (sigFor sig (pre.map ExecTask.name)) inp2 cache2 rt2).1,
           (runPipelineGo cfg tail (sigFor sig (pre.map ExecTask.name)) inp2 cache2 rt2).2.1,
           sigsOf sig pre ++
             (runPipelineGo cfg tail (sigFor sig (pre.map ExecTask.name)) inp2 cache2 rt2).2.2) := by
  intro pre
  induction pre with
  | nil =>
    intro tail sig inp cache rt _ _
    exact ⟨inp, rt, cache, by intro s; simp [sigsOf], rfl⟩
  | cons t pre ih =>
    intro tail sig inp cache rt htotal hfresh
    have hnone : cacheLookup cache (sig ++ ">" ++ t.name) = none := by
      rw [cacheLookup_none_iff]
      exact hfresh _ (by rw [sigsOf_cons]; simp)
    rcases htotal t (by simp) inp with ⟨v, hv⟩
    have hfresh' : ∀ s ∈ sigsOf (sig ++ ">" ++ t.name) pre,
        s ∉ cacheKeys ((sig ++ ">" ++ t.name, CacheEntry.mk v t.elapsed) :: cache) := by
      intro s hs hcon
      rcases (show s = sig ++ ">" ++ t.name ∨ s ∈ cacheKeys cache by
        simpa [cacheKeys] using hcon) with he | hc
      · have := sigsOf_length_lt pre (sig ++ ">" ++ t.name) s hs
        rw [he] at this
        omega
      · exact hfresh s (by rw [sigsOf_cons]; simp [hs]) hc
    rcases ih tail (sig ++ ">" ++ t.name) (some v)
      ((sig ++ ">" ++ t.name, CacheEntry.mk v t.elapsed) :: cache) (rt + t.elapsed)
      (fun t' ht' => htotal t' (by simp [ht'])) hfresh' with ⟨inp2, rt2, cache2, hkeys, heq⟩
    refine ⟨inp2, rt2, cache2, ?_, ?_⟩
    · intro s
      rw [hkeys s]
      constructor
      · rintro (hs | hc)
        · exact Or.inl (by rw [sigsOf_cons]; simp [hs])
        · rcases (show s = sig ++ ">" ++ t.name ∨ s ∈ cacheKeys cache by
            simpa [cacheKeys] using hc) with he | hc'
          · exact Or.inl (by rw [sigsOf_cons]; simp [he])
          · exact Or.inr hc'
      · rintro (hs | hc)
        · rw [sigsOf_cons] at hs
          rcases List.mem_cons.mp hs with rfl | hs'
          · exact Or.inr (by simp [cacheKeys])
          · exact Or.inl hs'
        · exact Or.inr (by simp [cacheKeys]; right; simpa [cacheKeys] using hc)
    · rw [List.cons_append, runPipelineGo, hnone, hv]
      show (_, _, (sig ++ ">" ++ t.name) :: _) = _
      rw [heq]
      rw [List.map_cons, sigFor_cons, sigsOf_cons]
      rfl

/-- C10: when a pipeline `pre ++ [t] ++ rest` raises at `t` (every task of
`pre` succeeds, `t` raises), `_run_pipeline` aborts with the exception
while the cache keeps the entries already stored for the completed `pre`
tasks (second conjunct: every `pre` signature is a key of the returned
cache — no rollback).  A later pipeline `pre ++ r2` sharing that prefix,
run over that cache with the same initial input and configuration, hits
those entries and re-executes none of the prefix tasks (third conjunct:
zero execution-trace occurrences of any prefix signature).  The fourth
conjunct pins the two passes as exactly the two passes a single
`executor.run` over `[pipeline, later-pipeline]` performs. -/
theorem claim_C10 {C V : Type} (sh : Option V → Option C → String)
    (cfg : Option C) (input : Option V) (idp idq : String)
    (pre rest r2 : List (ExecTask C V)) (t : ExecTask C V)
    (hpre : ∀ t' ∈ pre, ∀ i, ∃ v, t'.run cfg i = Except.ok v)
    (ht : ∀ i, ∃ e, t.run cfg i = Except.error e) :
    (∃ e, (runPipelineGo cfg (pre ++ t :: rest) (sh input cfg) input [] 0).1 =
      Except.error e) ∧
    (∀ s ∈ sigsOf (sh input cfg) pre,
      s ∈ cacheKeys (runPipelineGo cfg (pre ++ t :: rest) (sh input cfg) input [] 0).2.1) ∧
    (∀ s ∈ sigsOf (sh input cfg) pre,
      occurrences s (runPipelineGo cfg (pre ++ r2) (sh input cfg) input
        (runPipelineGo cfg (pre ++ t :: rest) (sh input cfg) input [] 0).2.1 0).2.2 = 0) ∧
    (execRun sh [ExecPipeline.mk idp (pre ++ t :: rest), ExecPipeline.mk idq (pre ++ r2)]
        [] input cfg).2.2 =
      (runPipelineGo cfg (pre ++ t :: rest) (sh input cfg) input [] 0).2.2 ++
      ((runPipelineGo cfg (pre ++ r2) (sh input cfg) input
        (runPipelineGo cfg (pre ++ t :: rest) (sh input cfg) input [] 0).2.1 0).2.2 ++ []) := by
  obtain ⟨inp2, rt2, cache2, hkeys, heq⟩ :=
    runGo_clean cfg pre (t :: rest) (sh input cfg) input [] 0 hpre
      (by intro s hs hc; simp [cacheKeys] at hc)
  have hlook : cacheLookup cache2
      (sigFor (sh input cfg) (pre.map ExecTask.name) ++ ">" ++ t.name) = none := by
    rw [cacheLookup_none_iff]
    intro hc
    rcases (hkeys _).mp hc with hs | hc2
    · have h1 := sigsOf_length_le_sigFor pre (sh input cfg) _ hs
      rw [String.length_append, String.length_append] at h1
      have h2 : (">").length = 1 := rfl
      omega
    · simp [cacheKeys] at hc2
  rcases ht inp2 with ⟨e, he⟩
  have habort : runPipelineGo cfg (t :: rest)
      (sigFor (sh input cfg) (pre.map ExecTask.name)) inp2 cache2 rt2 =
      (.error e, cache2,
        [sigFor (sh input cfg) (pre.map ExecTask.name) ++ ">" ++ t.name]) := by
    rw [runPipelineGo, hlook, he]
  have hmain : runPipelineGo cfg (pre ++ t :: rest) (sh input cfg) input [] 0 =
      (.error e, cache2, sigsOf (sh input cfg) pre ++
        [sigFor (sh input cfg) (pre.map ExecTask.name) ++ ">" ++ t.name]) := by
    rw [heq, habort]
  refine ⟨⟨e, by rw [hmain]⟩, ?_, ?_, ?_⟩
  · intro s hs
    rw [hmain]
    exact (hkeys s).mpr (Or.inl hs)
  · intro s hs
    rw [hmain]
    exact runGo_trace_of_cached cfg _ _ _ _ _ s ((hkeys s).mpr (Or.inl hs))
  · simp [execRun, execRunGo]

/-- Witness for `claim_C10`: pipeline `[execA, execBoom]` fails at
`execBoom`; the prefix signature `"H>A"` stays cached and the later
pipeline `[execA, execB]` never re-executes it. -/
theorem claim_C10_witness :
    "H>A" ∈ cacheKeys (runPipelineGo none ([execA] ++ execBoom :: [])
      (demoHash none none) none ([] : Cache Nat) 0).2.1 ∧
    occurrences "H>A" (runPipelineGo none ([execA] ++ [execB]) (demoHash none none) none
      (runPipelineGo none ([execA] ++ execBoom :: []) (demoHash none none) none
        ([] : Cache Nat) 0).2.1 0).2.2 = 0 := by
  have h := claim_C10 demoHash none none "p" "q" [execA] [] [execB] execBoom
    (by intro t' ht' i; rcases List.mem_singleton.mp ht' with rfl; exact ⟨1, rfl⟩)
    (fun i => ⟨"boom", rfl⟩)
  exact ⟨h.2.1 "H>A" (by decide), h.2.2.1 "H>A" (by decide)⟩

theorem sigFor_data : ∀ (ns : List String) (h : String),
    (sigFor h ns).data = h.data ++ sepJoin (ns.map String.data)
  | [], h => by simp [sigFor_nil, sepJoin]
  | n :: ns, h => by
    rw [sigFor_cons, sigFor_data ns (h ++ ">" ++ n)]
    rw [show sepJoin ((n :: ns).map String.data) =
      ('>' :: n.data) ++ sepJoin (ns.map String.data) from rfl]
    rw [String.data_append, String.data_append]
    rw [show (">").data = ['>'] from rfl]
    simp [List.append_assoc]

theorem sepJoin_shape : ∀ ls : List (List Char),
    sepJoin ls = [] ∨ ∃ r, sepJoin ls = '>' :: r
  | [] => Or.inl rfl
  | l :: ls => Or.inr ⟨l ++ sepJoin ls, rfl⟩

theorem noSep_append_inj : ∀ (a₁ a₂ r₁ r₂ : List Char),
    '>' ∉ a₁ → '>' ∉ a₂ →
    (r₁ = [] ∨ ∃ x, r₁ = '>' :: x) → (r₂ = [] ∨ ∃ x, r₂ = '>' :: x) →
    a₁ ++ r₁ = a₂ ++ r₂ → a₁ = a₂ ∧ r₁ = r₂
  | [], a₂, r₁, r₂, h1, h2, hr1, hr2, heq => by
    cases a₂ with
    | nil => exact ⟨rfl, heq⟩
    | cons c a₂' =>
      exfalso
      rw [List.nil_append, List.cons_append] at heq
      rcases hr1 with rfl | ⟨x, rfl⟩
      · cases heq
      · injection heq with hc _
        exact h2 (by rw [hc]; exact List.mem_cons_self _ _)
  | c₁ :: a₁', a₂, r₁, r₂, h1, h2, hr1, hr2, heq => by
    cases a₂ with
    | nil =>
      exfalso
      rw [List.nil_append, List.cons_append] at heq
      rcases hr2 with rfl | ⟨x, rfl⟩
      · cases heq
      · injection heq with hc _
        exact h1 (by rw [hc]; exact List.mem_cons_self _ _)
    | cons c₂ a₂' =>
      rw [List.cons_append, List.cons_append] at heq
      injection heq with hc htl
      subst hc
      obtain ⟨ha, hr⟩ := noSep_append_inj a₁' a₂' r₁ r₂
        (fun hm => h1 (List.mem_cons_of_mem _ hm))
        (fun hm => h2 (List.mem_cons_of_mem _ hm)) hr1 hr2 htl
      exact ⟨by rw [ha], hr⟩

theorem sepJoin_inj : ∀ (ls₁ ls₂ : List (List Char)),
    (∀ l ∈ ls₁, '>' ∉ l) → (∀ l ∈ ls₂, '>' ∉ l) →
    sepJoin ls₁ = sepJoin ls₂ → ls₁ = ls₂
  | [], [], _, _, _ => rfl
  | [], l :: ls, _, _, heq => by
    exfalso
    rw [show sepJoin (l :: ls) = '>' :: (l ++ sepJoin ls) from rfl,
      show sepJoin [] = [] from rfl] at heq
    cases heq
  | l :: ls, [], _, _, heq => by
    exfalso
    rw [show sepJoin (l :: ls) = '>' :: (l ++ sepJoin ls) from rfl,
      show sepJoin [] = [] from rfl] at heq
    cases heq
  | l₁ :: ls₁, l₂ :: ls₂, h1, h2, heq => by
    rw [show sepJoin (l₁ :: ls₁) = '>' :: (l₁ ++ sepJoin ls₁) from rfl,
      show sepJoin (l₂ :: ls₂) = '>' :: (l₂ ++ sepJoin ls₂) from rfl] at heq
    injection heq with _ htl
    obtain ⟨ha, hj⟩ := noSep_append_inj l₁ l₂ (sepJoin ls₁) (sepJoin ls₂)
      (h1 l₁ (by simp)) (h2 l₂ (by simp)) (sepJoin_shape ls₁) (sepJoin_shape ls₂) htl
    rw [ha, sepJoin_inj ls₁ ls₂ (fun l hl => h1 l (by simp [hl]))
      (fun l hl => h2 l (by simp [hl])) hj]

theorem stringDataMapInj : ∀ (ns₁ ns₂ : List String),
    ns₁.map String.data = ns₂.map String.data → ns₁ = ns₂
  | [], [], _ => rfl
  | [], _ :: _, h => by cases h
  | _ :: _, [], h => by cases h
  | n₁ :: ns₁, n₂ :: ns₂, h => by
    rw [List.map_cons, List.map_cons] at h
    injection h with hh ht
    rw [String.ext hh, stringDataMapInj ns₁ ns₂ ht]

/-- Cache signatures are injective in the consumed name list when no task
name contains the `\x3e` separator (Python class names never do). -/
theorem sigFor_inj {h : String} {ns₁ ns₂ : List String}
    (h1 : ∀ n ∈ ns₁, '>' ∉ n.data) (h2 : ∀ n ∈ ns₂, '>' ∉ n.data)
    (heq : sigFor h ns₁ = sigFor h ns₂) : ns₁ = ns₂ := by
  have hd := congrArg String.data heq
  rw [sigFor_data, sigFor_data] at hd
  have hj := List.append_cancel_left hd
  refine stringDataMapInj ns₁ ns₂ ?_
  refine sepJoin_inj (ns₁.map String.data) (ns₂.map String.data) ?_ ?_ hj
  · intro l hl
    rcases List.mem_map.mp hl with ⟨n, hn, rfl⟩
    exact h1 n hn
  · intro l hl
    rcases List.mem_map.mp hl with ⟨n, hn, rfl⟩
    exact h2 n hn

theorem mem_of_getLast?_eq {α : Type} {l : List α} {x : α}
    (h : l.getLast? = some x) : x ∈ l := by
  rcases List.mem_getLast?_eq_getLast (show x ∈ l.getLast? from h) with ⟨hne, he⟩
  rw [he]
  exact List.getLast_mem hne

/-- Any task that a pipeline reaches at one of the `pre` signatures has a
name among `pre`'s names (by signature injectivity), hence runs without
raising when every such-named task does. -/
theorem sigGuard_of_names {C V : Type} (cfg : Option C) (h0 : String)
    (pre : List (ExecTask C V)) (q : ExecPipeline C V) (s : String)
    (hs : s ∈ sigsOf h0 pre)
    (hqnames : ∀ t ∈ q.tasks, '>' ∉ t.name.data)
    (hprenames : ∀ t ∈ pre, '>' ∉ t.name.data)
    (hqtotal : ∀ t ∈ q.tasks, t.name ∈ pre.map ExecTask.name →
      ∀ i, ∃ v, t.run cfg i = Except.ok v) :
    SigGuard cfg s h0 q.tasks := by
  intro done t' rest' hsplit hsig inp
  rcases mem_sigsOf pre h0 s hs with ⟨j, hj, hsj⟩
  rw [hsj] at hsig
  have hnames_eq : (done ++ [t']).map ExecTask.name =
      (pre.map ExecTask.name).take (j + 1) := by
    refine sigFor_inj ?_ ?_ hsig
    · intro n hn
      rcases List.mem_map.mp hn with ⟨t0, ht0, rfl⟩
      refine hqnames t0 ?_
      rw [hsplit]
      rcases List.mem_append.mp ht0 with hd | hl
      · exact List.mem_append.mpr (Or.inl hd)
      · rcases List.mem_singleton.mp hl with rfl
        exact List.mem_append.mpr (Or.inr (by simp))
    · intro n hn
      have hn' : n ∈ pre.map ExecTask.name := List.mem_of_mem_take hn
      rcases List.mem_map.mp hn' with ⟨t0, ht0, rfl⟩
      exact hprenames t0 ht0
  have hlast : ((done ++ [t']).map ExecTask.name).getLast? = some t'.name := by
    rw [List.map_append, List.map_singleton, List.getLast?_concat]
  have hmem : t'.name ∈ pre.map ExecTask.name := by
    rw [hnames_eq] at hlast
    exact List.mem_of_mem_take (mem_of_getLast?_eq hlast)
  refine hqtotal t' ?_ hmem inp
  rw [hsplit]
  exact List.mem_append.mpr (Or.inr (by simp))

/-- C2: a single `executor.run` call, on an executor whose cache starts
empty, over any pipeline batch containing two pipelines `p1 = pre ++ r1`
and `p2 = pre ++ r2` that share the ordered task prefix `pre`, computes
each task of the shared prefix exactly once: every prefix signature (the
same for both pipelines since signatures depend only on the initial hash of
`(input, run_config)` and the consumed task identities) appears exactly
once in the whole run's execution trace — the later occurrences are cache
hits that adopt the stored output and elapsed time instead of re-executing.
Hypotheses: no task name contains the `\x3e` separator (true of Python
class names; makes signatures injective), and every task in the batch whose
name is a `pre` name runs without raising (so the one execution completes
and is cached). -/
theorem claim_C2 {C V : Type} (sh : Option V → Option C → String)
    (cfg : Option C) (input : Option V)
    (l1 l2 l3 : List (ExecPipeline C V)) (p1 p2 : ExecPipeline C V)
    (pre r1 r2 : List (ExecTask C V))
    (hp1 : p1.tasks = pre ++ r1) (hp2 : p2.tasks = pre ++ r2)
    (hnames : ∀ q ∈ l1 ++ (p1 :: (l2 ++ (p2 :: l3))), ∀ t ∈ q.tasks,
      '>' ∉ t.name.data)
    (htotal : ∀ q ∈ l1 ++ (p1 :: (l2 ++ (p2 :: l3))), ∀ t ∈ q.tasks,
      t.name ∈ pre.map ExecTask.name → ∀ i, ∃ v, t.run cfg i = Except.ok v) :
    ∀ s ∈ sigsOf (sh input cfg) pre,
      occurrences s (execRun sh (l1 ++ (p1 :: (l2 ++ (p2 :: l3)))) [] input cfg).2.2 = 1 := by
  intro s hs
  have hp1mem : p1 ∈ l1 ++ (p1 :: (l2 ++ (p2 :: l3))) := by simp
  have hguard : ∀ q ∈ l1 ++ (p1 :: (l2 ++ (p2 :: l3))),
      SigGuard cfg s (sh input cfg) q.tasks := by
    intro q hq
    refine sigGuard_of_names cfg _ pre q s hs (hnames q hq) ?_ (htotal q hq)
    intro t ht
    exact hnames p1 hp1mem t (by rw [hp1]; exact List.mem_append.mpr (Or.inl ht))
  have hle : occurrences s
      (execRunGo sh cfg input (l1 ++ (p1 :: (l2 ++ (p2 :: l3)))) []).2.2 ≤ 1 :=
    execGo_guard_count sh cfg input s _ [] hguard (by simp [cacheKeys])
  have hkey1 : s ∈ cacheKeys (execRunGo sh cfg input (l1 ++ [p1]) []).2.1 := by
    rw [execGo_append]
    show s ∈ cacheKeys (execRunGo sh cfg input [p1]
      (execRunGo sh cfg input l1 []).2.1).2.1
    show s ∈ cacheKeys (runPipelineGo cfg p1.tasks (sh input cfg) input
      (execRunGo sh cfg input l1 []).2.1 0).2.1
    rw [hp1]
    refine runGo_sigs_cached cfg pre r1 (sh input cfg) input _ 0 ?_ s hs
    intro t ht i
    exact htotal p1 hp1mem t (by rw [hp1]; exact List.mem_append.mpr (Or.inl ht))
      (List.mem_map_of_mem ExecTask.name ht) i
  have hsplit : l1 ++ (p1 :: (l2 ++ (p2 :: l3))) =
      (l1 ++ [p1]) ++ (l2 ++ (p2 :: l3)) := by
    simp
  have hkeyfin : s ∈ cacheKeys
      (execRunGo sh cfg input (l1 ++ (p1 :: (l2 ++ (p2 :: l3)))) []).2.1 := by
    rw [hsplit, execGo_append]
    show s ∈ cacheKeys (execRunGo sh cfg input (l2 ++ (p2 :: l3))
      (execRunGo sh cfg input (l1 ++ [p1]) []).2.1).2.1
    exact execGo_keys_mono sh cfg input _ _ s hkey1
  have hmemtr : s ∈ (execRunGo sh cfg input (l1 ++ (p1 :: (l2 ++ (p2 :: l3)))) []).2.2 := by
    rcases execGo_keys_from sh cfg input _ [] s hkeyfin with hc | htr
    · simp [cacheKeys] at hc
    · exact htr
  have hge := occurrences_pos hmemtr
  show occurrences s (execRunGo sh cfg input (l1 ++ (p1 :: (l2 ++ (p2 :: l3)))) []).2.2 = 1
  omega

/-- Witness for `claim_C2`: the batch `[execP1, execP2]` shares the prefix
`[execA]`; its signature `"H>A"` is executed exactly once in the whole
run. -/
theorem claim_C2_witness :
    occurrences "H>A"
      (execRun demoHash ([] ++ (execP1 :: ([] ++ (execP2 :: [])))) [] none none).2.2 = 1 := by
  refine claim_C2 demoHash none none [] [] [] execP1 execP2 [execA] [execB] [execBoom]
    rfl rfl ?_ ?_ "H>A" (by decide)
  · intro q hq t ht
    simp only [List.nil_append, List.mem_cons, List.not_mem_nil, or_false] at hq
    rcases hq with rfl | rfl
    · simp only [execP1, List.mem_cons, List.not_mem_nil, or_false] at ht
      rcases ht with rfl | rfl <;> decide
    · simp only [execP2, List.mem_cons, List.not_mem_nil, or_false] at ht
      rcases ht with rfl | rfl <;> decide
  · intro q hq t ht hname i
    simp only [List.nil_append, List.mem_cons, List.not_mem_nil, or_false] at hq
    rcases hq with rfl | rfl
    · simp only [execP1, List.mem_cons, List.not_mem_nil, or_false] at ht
      rcases ht with rfl | rfl
      · exact ⟨1, rfl⟩
      · exact absurd hname (by decide)
    · simp only [execP2, List.mem_cons, List.not_mem_nil, or_false] at ht
      rcases ht with rfl | rfl
      · exact ⟨1, rfl⟩
      · exact absurd hname (by decide)

theorem typesIntersect_comm {a b : List String} :
    typesIntersect a b = typesIntersect b a := by
  cases h1 : typesIntersect a b <;> cases h2 : typesIntersect b a <;> try rfl
  · rcases typesIntersect_iff.mp h2 with ⟨x, hx1, hx2⟩
    have hcon := typesIntersect_iff.mpr ⟨x, hx2, hx1⟩
    rw [h1] at hcon
    cases hcon
  · rcases typesIntersect_iff.mp h1 with ⟨x, hx1, hx2⟩
    have hcon := typesIntersect_iff.mpr ⟨x, hx2, hx1⟩
    rw [h2] at hcon
    cases hcon

theorem addTasks_of_chain :
    ∀ (rest acc : List TaskDef) (last : TaskDef), acc.getLast? = some last →
      List.Chain (fun a b => typesIntersect a.output_types b.input_types = true)
        last rest →
      addTasks acc rest = .ok (acc ++ rest)
  | [], acc, last, _, _ => by rw [addTasks, List.append_nil]
  | b :: rest, acc, last, hlast, hchain => by
    rcases List.chain_cons.mp hchain with ⟨hcompat, hchain'⟩
    rw [addTasks, addTask, pipelineOutputTypes, hlast]
    rw [show typesIntersect b.input_types last.output_types =
      typesIntersect last.output_types b.input_types from typesIntersect_comm, hcompat]
    rw [show (true || List.isEmpty acc) = true from rfl]
    rw [if_pos rfl]
    show addTasks (acc ++ [b]) rest = Except.ok (acc ++ b :: rest)
    rw [addTasks_of_chain rest (acc ++ [b]) b (List.getLast?_concat acc) hchain']
    simp

/-- The `Pipeline(tasks[1:] + [node.task])` constructor call inside
`build_pipelines` re-validates consecutive type compatibility via
`add_tasks`; on every pipeline the traversal produces, that validation
succeeds and returns exactly the path's task list, because every tree edge
already satisfied the same intersection check.  This justifies modelling
`build_pipelines` as returning the raw task lists. -/
theorem buildPipelines_construction_ok (tcs : List TaskDef) (md : Nat)
    (st' st'' : RepoState) (r : Node) (ps : List (List TaskDef))
    (hbt : buildTree (freshRepository tcs) md = (st', .ok r))
    (hbp : buildPipelines st' = (st'', .ok ps)) :
    ∀ p ∈ ps, addTasks [] p = .ok p := by
  obtain ⟨hpr, hst⟩ := buildTree_fresh_ok hbt
  have hroot : st'.root = some r := by rw [hst]
  rw [buildPipelines, hroot, Prod.mk.injEq] at hbp
  obtain ⟨_, h2⟩ := hbp
  rw [Except.ok.injEq] at h2
  subst h2
  intro p hp
  obtain ⟨c0, cs0, rfl⟩ := pruned_root_shape hpr
  rw [buildPipelinesRec_root] at hp
  rcases List.mem_flatMap.mp hp with ⟨c, hc, hpc⟩
  have hec := pruneNode_edgesCompat _ _ hpr
    (buildTreeFuel_edgesCompat tcs (md + 1) [] ROOT_TASK)
  rcases hec with ⟨_, _, _, hrec⟩
  have hchain := edgesCompat_paths_chain c (hrec c hc) p hpc
  rcases mem_pathsOf_cons hpc with ⟨q, rfl⟩
  rw [addTasks, addTask]
  rw [show pipelineOutputTypes ([] : List TaskDef) = [] from rfl]
  rw [show List.isEmpty ([] : List TaskDef) = true from rfl]
  rw [Bool.or_true, if_pos rfl]
  show addTasks [c.task] q = Except.ok (c.task :: q)
  rw [addTasks_of_chain q [c.task] c.task rfl hchain]
  rfl

/-- C1, counterexample to the claim as stated (over *every* repository on
which `build_tree` has succeeded): on the repository `[demoA, demoB]`
(A: source→x, B: x→sink), after a successful `build_tree(5)`, a second
call `build_tree(0)` also *succeeds* — the new tree is pruned away
entirely, but the stale leaf left in `self.leaves` by the first call keeps
the leaf list non-empty, so the call returns the childless sentinel root
instead of raising.  `build_pipelines` then returns the single pipeline
`[Root]`, which contains the sentinel root task, whose first task declares
no `"source"` input and whose last task declares no `"sink"` output —
falsifying every shape property of the claim. -/
theorem claim_C1_counterexample :
    (buildTree (buildTree (freshRepository [demoA, demoB]) 5).1 0).2 =
      .ok (Node.mk ROOT_TASK .nil) ∧
    (buildPipelines (buildTree (buildTree (freshRepository [demoA, demoB]) 5).1 0).1).2 =
      .ok [[ROOT_TASK]] ∧
    ROOT_TASK ∈ [ROOT_TASK] ∧
    SOURCE_TYPE ∉ ROOT_TASK.input_types ∧
    SINK_TYPE ∉ ROOT_TASK.output_types :=
  ⟨rfl, rfl, by decide, by decide, by decide⟩
